import Mathlib

/-!
# Quadtree: a shallow embedding of `quadtree.go`

Coordinates are exact rationals (the Go source uses `float64`; every result
below is about the arithmetic of exact numbers).  Rounding and underflow are not
modelled: in `float64` the edges of neighbouring quadrants, computed as
`center ± halfDim`, can round apart and leave a seam that belongs to no child,
and half-extents halved often enough become 0.  Statements that depend on the
quadrants covering their parent are therefore statements about exact numbers;
concrete inputs are chosen so that both arithmetics give the same outcome, and a
tree that only the rounded arithmetic builds is written out with its rounded
values as exact fractions.  A slice is a list together
with its capacity, because `Insert` compares `len(qt.points)` with
`cap(qt.points)`.  A call that does not return (unbounded recursion, or a
dereference of a nil child) yields `none`; `Insert` carries a recursion budget.
-/

namespace Quadtree

/-- The constant `nodeCapacity` of the source. -/
def nodeCapacity : Nat := 4

/-- The type `XY`: a point, or a pair of half-extents. -/
structure XY where
  X : ℚ
  Y : ℚ
  deriving DecidableEq, Repr

/-- The type `AABB`: an axis-aligned box given by its centre and half-extents. -/
structure AABB where
  center : XY
  halfDim : XY
  deriving DecidableEq, Repr

/-- The method `AABB.ContainsPoint`. -/
def AABB.ContainsPoint (a : AABB) (p : XY) : Bool :=
  decide (p.X ≥ a.center.X - a.halfDim.X) &&
  decide (p.X ≤ a.center.X + a.halfDim.X) &&
  decide (p.Y ≥ a.center.Y - a.halfDim.Y) &&
  decide (p.Y ≤ a.center.Y + a.halfDim.Y)

/-- The method `AABB.IntersectsAABB`. -/
def AABB.IntersectsAABB (a other : AABB) : Bool :=
  !(decide (other.center.X + other.halfDim.X < a.center.X - a.halfDim.X) ||
    decide (other.center.Y + other.halfDim.Y < a.center.Y - a.halfDim.Y) ||
    decide (other.center.X - other.halfDim.X > a.center.X + a.halfDim.X) ||
    decide (other.center.Y - other.halfDim.Y > a.center.Y + a.halfDim.Y))

/-- The type `QuadTree`.  A node whose `ul` is nil is a `leaf`; otherwise it is
a `node` with its four children.  `points` and `cap` are the slice `qt.points`
and its capacity; both constructors carry them, as the Go struct does. -/
inductive QuadTree where
  | leaf (boundary : AABB) (points : List XY) (cap : Nat)
  | node (boundary : AABB) (points : List XY) (cap : Nat) (ul ur dl dr : QuadTree)
  deriving Repr

namespace QuadTree

/-- The field `qt.boundary`. -/
def boundary : QuadTree → AABB
  | leaf b _ _ => b
  | node b _ _ _ _ _ _ => b

/-- The field `qt.points`. -/
def points : QuadTree → List XY
  | leaf _ ps _ => ps
  | node _ ps _ _ _ _ _ => ps

/-- The capacity `cap(qt.points)`. -/
def cap : QuadTree → Nat
  | leaf _ _ c => c
  | node _ _ c _ _ _ _ => c

/-- The method `isLeaf`. -/
def isLeaf : QuadTree → Bool
  | leaf _ _ _ => true
  | node _ _ _ _ _ _ _ => false

/-- The statement `qt.points = append(qt.points, p)` when `len < cap`: the
capacity is kept. -/
def appendPoint : QuadTree → XY → QuadTree
  | leaf b ps c, p => leaf b (ps ++ [p]) c
  | node b ps c ul ur dl dr, p => node b (ps ++ [p]) c ul ur dl dr

end QuadTree

/-- The function `New`: an empty leaf whose buffer has capacity `nodeCapacity`. -/
def New (boundary : AABB) : QuadTree := QuadTree.leaf boundary [] nodeCapacity

/-- The box `boxUL` computed by `split`. -/
def boxUL (b : AABB) : AABB :=
  ⟨⟨b.center.X - b.halfDim.X / 2, b.center.Y + b.halfDim.Y / 2⟩,
   ⟨b.halfDim.X / 2, b.halfDim.Y / 2⟩⟩

/-- The box `boxUR` computed by `split`. -/
def boxUR (b : AABB) : AABB :=
  ⟨⟨b.center.X + b.halfDim.X / 2, b.center.Y + b.halfDim.Y / 2⟩,
   ⟨b.halfDim.X / 2, b.halfDim.Y / 2⟩⟩

/-- The box `boxDL` computed by `split`. -/
def boxDL (b : AABB) : AABB :=
  ⟨⟨b.center.X - b.halfDim.X / 2, b.center.Y - b.halfDim.Y / 2⟩,
   ⟨b.halfDim.X / 2, b.halfDim.Y / 2⟩⟩

/-- The box `boxDR` computed by `split`. -/
def boxDR (b : AABB) : AABB :=
  ⟨⟨b.center.X + b.halfDim.X / 2, b.center.Y - b.halfDim.Y / 2⟩,
   ⟨b.halfDim.X / 2, b.halfDim.Y / 2⟩⟩

/-- Four children `ul, ur, dl, dr` of a node. -/
structure Quad where
  ul : QuadTree
  ur : QuadTree
  dl : QuadTree
  dr : QuadTree

/-- The expression `_ = ul.Insert(p) || ur.Insert(p) || dl.Insert(p) ||
dr.Insert(p)`, with `ins` the recursive call: the children are tried in this
order, the first call that returns true ends the chain, and a call that does
not return leaves the whole expression without a result. -/
def insertFirst (ins : QuadTree → XY → Option (Bool × QuadTree)) (p : XY) (q : Quad) :
    Option Quad :=
  match ins q.ul p with
  | none => none
  | some (true, ul) => some ⟨ul, q.ur, q.dl, q.dr⟩
  | some (false, ul) =>
    match ins q.ur p with
    | none => none
    | some (true, ur) => some ⟨ul, ur, q.dl, q.dr⟩
    | some (false, ur) =>
      match ins q.dl p with
      | none => none
      | some (true, dl) => some ⟨ul, ur, dl, q.dr⟩
      | some (false, dl) =>
        match ins q.dr p with
        | none => none
        | some (_, dr) => some ⟨ul, ur, dl, dr⟩

/-- The loop `for _, p := range qt.points` of `split`, over the children. -/
def reinsert (ins : QuadTree → XY → Option (Bool × QuadTree)) : List XY → Quad → Option Quad
  | [], q => some q
  | p :: ps, q =>
    match insertFirst ins p q with
    | none => none
    | some q1 => reinsert ins ps q1

/-- The method `split`, with `ins` the recursive call of `Insert`: a node that
is not a leaf is returned as it is; a leaf gets four fresh children over the
quadrant boxes, its points are inserted into them, and its buffer becomes nil
(length 0, capacity 0). -/
def split (ins : QuadTree → XY → Option (Bool × QuadTree)) : QuadTree → Option QuadTree
  | QuadTree.node b ps c ul ur dl dr => some (QuadTree.node b ps c ul ur dl dr)
  | QuadTree.leaf b ps _ =>
    match reinsert ins ps ⟨New (boxUL b), New (boxUR b), New (boxDL b), New (boxDR b)⟩ with
    | none => none
    | some q => some (QuadTree.node b [] 0 q.ul q.ur q.dl q.dr)

/-- The tail of `Insert` (lines 65 to 69): insert into the children and return
true.  On a node without children the Go code dereferences a nil pointer and
returns nothing. -/
def descend (ins : QuadTree → XY → Option (Bool × QuadTree)) (p : XY) :
    QuadTree → Option (Bool × QuadTree)
  | QuadTree.leaf _ _ _ => none
  | QuadTree.node b ps c ul ur dl dr =>
    match insertFirst ins p ⟨ul, ur, dl, dr⟩ with
    | none => none
    | some q => some (true, QuadTree.node b ps c q.ul q.ur q.dl q.dr)

/-- The method `Insert`.  The first argument bounds the depth of the recursion;
the result is the returned boolean together with the tree after the call, and
`none` when the budget does not suffice. -/
def Insert : Nat → QuadTree → XY → Option (Bool × QuadTree)
  | 0, _, _ => none
  | fuel + 1, qt, p =>
    if !qt.boundary.ContainsPoint p then some (false, qt)
    else if qt.points.length < qt.cap then some (true, qt.appendPoint p)
    else
      match (if qt.isLeaf then split (Insert fuel) qt else some qt) with
      | none => none
      | some qt1 => descend (Insert fuel) p qt1

/-- The method `SearchArea`. -/
def SearchArea : QuadTree → AABB → List XY
  | QuadTree.leaf b ps _, a =>
    if !b.IntersectsAABB a then [] else ps.filter (fun p => a.ContainsPoint p)
  | QuadTree.node b _ _ ul ur dl dr, a =>
    if !b.IntersectsAABB a then []
    else SearchArea ul a ++ SearchArea ur a ++ SearchArea dl a ++ SearchArea dr a

/-- The function `distance2`: the second difference is `p2.Y - p2.Y`. -/
def distance2 (p1 p2 : XY) : ℚ :=
  let d1 := p1.X - p2.X
  let d2 := p2.Y - p2.Y
  (d1 * d1) + (d2 * d2)

/-- The function `boundingBox`. -/
def boundingBox (p : XY) (d : ℚ) : AABB := ⟨p, ⟨d, d⟩⟩

/-- The method `SearchNear`. -/
def SearchNear (qt : QuadTree) (p : XY) (d : ℚ) : List XY :=
  let d2 := d * d
  let box := boundingBox p d
  let candidates := SearchArea qt box
  candidates.filter (fun p2 => decide (distance2 p p2 ≤ d2))

/-- The method `IsAnyPointArea`. -/
def IsAnyPointArea : QuadTree → AABB → Bool
  | QuadTree.leaf b ps _, a =>
    if !b.IntersectsAABB a then false else ps.any (fun p => a.ContainsPoint p)
  | QuadTree.node b _ _ ul ur dl dr, a =>
    if !b.IntersectsAABB a then false
    else IsAnyPointArea ul a || IsAnyPointArea ur a || IsAnyPointArea dl a ||
      IsAnyPointArea dr a

/-- The method `IsAnyPointNear`. -/
def IsAnyPointNear : QuadTree → XY → ℚ → Bool
  | QuadTree.leaf b ps _, p, d =>
    let a := boundingBox p d
    if !b.IntersectsAABB a then false
    else
      let d2 := d * d
      ps.any (fun p2 => a.ContainsPoint p2 && decide (distance2 p p2 ≤ d2))
  | QuadTree.node b _ _ ul ur dl dr, p, d =>
    let a := boundingBox p d
    if !b.IntersectsAABB a then false
    else IsAnyPointNear ul p d || IsAnyPointNear ur p d || IsAnyPointNear dl p d ||
      IsAnyPointNear dr p d

/-- A run of `Insert` calls from a tree: the list of points for which `Insert`
returned true (in call order) and the final tree; `none` if some call does not
return within the budget. -/
def insertAll (fuel : Nat) : QuadTree → List XY → Option (List XY × QuadTree)
  | qt, [] => some ([], qt)
  | qt, p :: ps =>
    match Insert fuel qt p with
    | none => none
    | some (b, qt1) =>
      match insertAll fuel qt1 ps with
      | none => none
      | some (acc, qt2) => some (if b then p :: acc else acc, qt2)

/-- The points stored in the leaves of a tree, children in the order UL, UR, DL,
DR.  The buffer of an internal node is not read by any search. -/
def allPoints : QuadTree → List XY
  | QuadTree.leaf _ ps _ => ps
  | QuadTree.node _ _ _ ul ur dl dr =>
    allPoints ul ++ allPoints ur ++ allPoints dl ++ allPoints dr

/-- Containment: below every node, every stored point lies in the node's region. -/
def Contained : QuadTree → Prop
  | QuadTree.leaf b ps _ => ∀ p ∈ ps, b.ContainsPoint p = true
  | QuadTree.node b ps c ul ur dl dr =>
    (∀ p ∈ allPoints (QuadTree.node b ps c ul ur dl dr), b.ContainsPoint p = true) ∧
    Contained ul ∧ Contained ur ∧ Contained dl ∧ Contained dr

/-- The invariant of the trees built by `New` and `Insert`: a leaf has a buffer
of capacity `nodeCapacity` holding points of its region; an internal node has
a nil buffer and children over the four quadrant boxes of its region. -/
def Inv : QuadTree → Prop
  | QuadTree.leaf b ps c =>
    c = nodeCapacity ∧ ps.length ≤ nodeCapacity ∧ ∀ p ∈ ps, b.ContainsPoint p = true
  | QuadTree.node b ps c ul ur dl dr =>
    ps = [] ∧ c = 0 ∧
    ul.boundary = boxUL b ∧ ur.boundary = boxUR b ∧
    dl.boundary = boxDL b ∧ dr.boundary = boxDR b ∧
    Inv ul ∧ Inv ur ∧ Inv dl ∧ Inv dr

/-- The contract of one `Insert` call on a tree satisfying `Inv`, stated for an
arbitrary recursive call `ins`. -/
def InsertSpec (ins : QuadTree → XY → Option (Bool × QuadTree)) : Prop :=
  ∀ (qt : QuadTree) (p : XY) (b : Bool) (qt1 : QuadTree), Inv qt → ins qt p = some (b, qt1) →
    Inv qt1 ∧ qt1.boundary = qt.boundary ∧ b = qt.boundary.ContainsPoint p ∧
    (b = false → qt1 = qt) ∧ (b = true → (allPoints qt1).Perm (p :: allPoints qt))

/-- Every point held below a node: its own buffer (also that of an internal
node) and the points of its children. -/
def storedPoints : QuadTree → List XY
  | QuadTree.leaf _ ps _ => ps
  | QuadTree.node _ ps _ ul ur dl dr =>
    ps ++ storedPoints ul ++ storedPoints ur ++ storedPoints dl ++ storedPoints dr

/-- The containment invariant: at every node, every point in its buffer or in
any of its descendants lies in the node's own region. -/
def ContainmentInv : QuadTree → Prop
  | QuadTree.leaf b ps _ => ∀ p ∈ ps, b.ContainsPoint p = true
  | QuadTree.node b ps c ul ur dl dr =>
    (∀ p ∈ storedPoints (QuadTree.node b ps c ul ur dl dr), b.ContainsPoint p = true) ∧
    ContainmentInv ul ∧ ContainmentInv ur ∧ ContainmentInv dl ∧ ContainmentInv dr

/-- The shape invariant: a leaf holds at most `nodeCapacity` points, an internal
node has an empty buffer (its four children are part of the constructor). -/
def Shape : QuadTree → Prop
  | QuadTree.leaf _ ps _ => ps.length ≤ nodeCapacity
  | QuadTree.node _ ps _ ul ur dl dr =>
    ps = [] ∧ Shape ul ∧ Shape ur ∧ Shape dl ∧ Shape dr

/-- The frame of a tree is kept: `SameFrame t t1` says that `t1` has the region
of `t` at its root and, where `t` is internal, `t1` is internal too and the same
holds for each pair of corresponding children. -/
def SameFrame : QuadTree → QuadTree → Prop
  | QuadTree.leaf b _ _, t1 => t1.boundary = b
  | QuadTree.node _ _ _ _ _ _ _, QuadTree.leaf _ _ _ => False
  | QuadTree.node b _ _ ul ur dl dr, QuadTree.node b1 _ _ ul1 ur1 dl1 dr1 =>
    b1 = b ∧ SameFrame ul ul1 ∧ SameFrame ur ur1 ∧ SameFrame dl dl1 ∧ SameFrame dr dr1

/-- The point's first containing quadrant of `b` is UL. -/
def firstUL (b : AABB) (p : XY) : Bool := (boxUL b).ContainsPoint p

/-- The point's first containing quadrant of `b` is UR. -/
def firstUR (b : AABB) (p : XY) : Bool :=
  !(boxUL b).ContainsPoint p && (boxUR b).ContainsPoint p

/-- The point's first containing quadrant of `b` is DL. -/
def firstDL (b : AABB) (p : XY) : Bool :=
  !(boxUL b).ContainsPoint p && !(boxUR b).ContainsPoint p && (boxDL b).ContainsPoint p

/-- The point's first containing quadrant of `b` is DR. -/
def firstDR (b : AABB) (p : XY) : Bool :=
  !(boxUL b).ContainsPoint p && !(boxUR b).ContainsPoint p && !(boxDL b).ContainsPoint p &&
    (boxDR b).ContainsPoint p

/-- The number of subdivisions along the longest path from the root to a leaf. -/
def depth : QuadTree → Nat
  | QuadTree.leaf _ _ _ => 0
  | QuadTree.node _ _ _ ul ur dl dr =>
    1 + max (max (depth ul) (depth ur)) (max (depth dl) (depth dr))

/-- Every internal node holds more than `nodeCapacity` points below it. -/
def Dense : QuadTree → Prop
  | QuadTree.leaf _ _ _ => True
  | QuadTree.node b ps c ul ur dl dr =>
    nodeCapacity < (allPoints (QuadTree.node b ps c ul ur dl dr)).length ∧
    Dense ul ∧ Dense ur ∧ Dense dl ∧ Dense dr

/-! ## Regions -/

theorem containsPoint_iff (a : AABB) (p : XY) :
    a.ContainsPoint p = true ↔
      a.center.X - a.halfDim.X ≤ p.X ∧ p.X ≤ a.center.X + a.halfDim.X ∧
      a.center.Y - a.halfDim.Y ≤ p.Y ∧ p.Y ≤ a.center.Y + a.halfDim.Y := by
  simp [AABB.ContainsPoint, and_assoc]

theorem intersectsAABB_iff (a o : AABB) :
    a.IntersectsAABB o = true ↔
      a.center.X - a.halfDim.X ≤ o.center.X + o.halfDim.X ∧
      a.center.Y - a.halfDim.Y ≤ o.center.Y + o.halfDim.Y ∧
      o.center.X - o.halfDim.X ≤ a.center.X + a.halfDim.X ∧
      o.center.Y - o.halfDim.Y ≤ a.center.Y + a.halfDim.Y := by
  simp [AABB.IntersectsAABB, and_assoc]

/-- A point that lies in two boxes makes them intersect. -/
theorem intersects_of_contains (a o : AABB) (p : XY)
    (ha : a.ContainsPoint p = true) (ho : o.ContainsPoint p = true) :
    a.IntersectsAABB o = true := by
  rw [containsPoint_iff] at ha ho
  rw [intersectsAABB_iff]
  obtain ⟨h1, h2, h3, h4⟩ := ha
  obtain ⟨k1, k2, k3, k4⟩ := ho
  exact ⟨by linarith, by linarith, by linarith, by linarith⟩

theorem quadrants_cover (b : AABB) (p : XY) :
    b.ContainsPoint p = true ↔
      ((boxUL b).ContainsPoint p = true ∨ (boxUR b).ContainsPoint p = true ∨
       (boxDL b).ContainsPoint p = true ∨ (boxDR b).ContainsPoint p = true) := by
  simp only [containsPoint_iff, boxUL, boxUR, boxDL, boxDR]
  constructor
  · rintro ⟨h1, h2, h3, h4⟩
    rcases le_total p.X b.center.X with hx | hx <;>
      rcases le_total p.Y b.center.Y with hy | hy
    · right; right; left
      exact ⟨by linarith, by linarith, by linarith, by linarith⟩
    · left
      exact ⟨by linarith, by linarith, by linarith, by linarith⟩
    · right; right; right
      exact ⟨by linarith, by linarith, by linarith, by linarith⟩
    · right; left
      exact ⟨by linarith, by linarith, by linarith, by linarith⟩
  · rintro (⟨h1, h2, h3, h4⟩ | ⟨h1, h2, h3, h4⟩ | ⟨h1, h2, h3, h4⟩ | ⟨h1, h2, h3, h4⟩) <;>
      exact ⟨by linarith, by linarith, by linarith, by linarith⟩

/-- C6: a region contains a point exactly when one of the four child regions
computed by `split` (UL, UR, DL, DR) contains it: the quadrants cover the parent
and nothing more. -/
theorem C6_quadrants_partition (R : AABB) (p : XY) :
    R.ContainsPoint p = true ↔
      ((boxUL R).ContainsPoint p = true ∨ (boxUR R).ContainsPoint p = true ∨
       (boxDL R).ContainsPoint p = true ∨ (boxDR R).ContainsPoint p = true) :=
  quadrants_cover R p

/-- C7: for boxes with non-negative half-extents, `IntersectsAABB` holds exactly
when the two boxes share a point; touching boxes intersect. -/
theorem C7_intersects_iff_common_point (a b : AABB)
    (ha : 0 ≤ a.halfDim.X ∧ 0 ≤ a.halfDim.Y) (hb : 0 ≤ b.halfDim.X ∧ 0 ≤ b.halfDim.Y) :
    (a.IntersectsAABB b = true ↔
      ∃ p : XY, a.ContainsPoint p = true ∧ b.ContainsPoint p = true) ∧
    (AABB.IntersectsAABB ⟨⟨0, 0⟩, ⟨1, 1⟩⟩ ⟨⟨2, 0⟩, ⟨1, 1⟩⟩ = true ∧
     AABB.IntersectsAABB ⟨⟨0, 0⟩, ⟨1, 1⟩⟩ ⟨⟨2, 2⟩, ⟨1, 1⟩⟩ = true) := by
  refine ⟨⟨?_, ?_⟩, by norm_num [AABB.IntersectsAABB], by norm_num [AABB.IntersectsAABB]⟩
  · intro h
    rw [intersectsAABB_iff] at h
    obtain ⟨h1, h2, h3, h4⟩ := h
    obtain ⟨ax, ay⟩ := ha
    obtain ⟨bx, byy⟩ := hb
    refine ⟨⟨max (a.center.X - a.halfDim.X) (b.center.X - b.halfDim.X),
             max (a.center.Y - a.halfDim.Y) (b.center.Y - b.halfDim.Y)⟩, ?_, ?_⟩
    · rw [containsPoint_iff]
      refine ⟨le_max_left _ _, max_le (by linarith) h3, le_max_left _ _,
        max_le (by linarith) h4⟩
    · rw [containsPoint_iff]
      refine ⟨le_max_right _ _, max_le h1 (by linarith), le_max_right _ _,
        max_le h2 (by linarith)⟩
  · rintro ⟨p, h1, h2⟩
    exact intersects_of_contains a b p h1 h2

theorem C7_intersects_witness :
    (AABB.IntersectsAABB ⟨⟨0, 0⟩, ⟨1, 1⟩⟩ ⟨⟨3, 0⟩, ⟨1, 1⟩⟩ = true ↔
      ∃ p : XY, AABB.ContainsPoint ⟨⟨0, 0⟩, ⟨1, 1⟩⟩ p = true ∧
        AABB.ContainsPoint ⟨⟨3, 0⟩, ⟨1, 1⟩⟩ p = true) :=
  (C7_intersects_iff_common_point ⟨⟨0, 0⟩, ⟨1, 1⟩⟩ ⟨⟨3, 0⟩, ⟨1, 1⟩⟩
    ⟨by norm_num, by norm_num⟩ ⟨by norm_num, by norm_num⟩).1

/-- C8: `ContainsPoint` holds exactly when the point is within the half-extents
of the centre on both axes, that is, in the closed rectangle. -/
theorem C8_contains_iff_abs (a : AABB) (p : XY) :
    a.ContainsPoint p = true ↔
      |p.X - a.center.X| ≤ a.halfDim.X ∧ |p.Y - a.center.Y| ≤ a.halfDim.Y := by
  rw [containsPoint_iff, abs_le, abs_le]
  constructor
  · rintro ⟨h1, h2, h3, h4⟩
    exact ⟨⟨by linarith, by linarith⟩, ⟨by linarith, by linarith⟩⟩
  · rintro ⟨⟨h1, h2⟩, ⟨h3, h4⟩⟩
    exact ⟨by linarith, by linarith, by linarith, by linarith⟩

/-! ## The emptiness tests against the searches -/

theorem filter_ne_nil_iff_any (f : XY → Bool) (ps : List XY) :
    ps.filter f ≠ [] ↔ ps.any f = true := by
  induction ps with
  | nil => simp
  | cons x xs ih =>
    by_cases hx : f x = true
    · simp [List.filter_cons, hx]
    · simp only [Bool.not_eq_true] at hx
      simp [List.filter_cons, hx, ih]

theorem isAnyPointArea_iff (qt : QuadTree) (a : AABB) :
    IsAnyPointArea qt a = true ↔ SearchArea qt a ≠ [] := by
  induction qt with
  | leaf b ps c =>
    simp only [IsAnyPointArea, SearchArea]
    by_cases h : b.IntersectsAABB a = true
    · simp only [h, Bool.not_true, Bool.false_eq_true, if_false]
      exact (filter_ne_nil_iff_any _ ps).symm
    · simp only [Bool.not_eq_true] at h
      simp [h]
  | node b ps c ul ur dl dr h1 h2 h3 h4 =>
    simp only [IsAnyPointArea, SearchArea]
    by_cases h : b.IntersectsAABB a = true
    · simp only [h, Bool.not_true, Bool.false_eq_true, if_false, Bool.or_eq_true, h1, h2, h3,
        h4, ne_eq, List.append_eq_nil, not_and_or]
    · simp only [Bool.not_eq_true] at h
      simp [h]

theorem searchNear_leaf (b : AABB) (ps : List XY) (c : Nat) (p : XY) (d : ℚ) :
    SearchNear (QuadTree.leaf b ps c) p d =
      if !b.IntersectsAABB (boundingBox p d) then []
      else ps.filter (fun p2 => (boundingBox p d).ContainsPoint p2 &&
        decide (distance2 p p2 ≤ d * d)) := by
  simp only [SearchNear, SearchArea]
  split
  · simp
  · rw [List.filter_filter]
    congr 1
    funext x
    exact Bool.and_comm _ _

theorem searchNear_node (b : AABB) (ps : List XY) (c : Nat) (ul ur dl dr : QuadTree)
    (p : XY) (d : ℚ) :
    SearchNear (QuadTree.node b ps c ul ur dl dr) p d =
      if !b.IntersectsAABB (boundingBox p d) then []
      else SearchNear ul p d ++ SearchNear ur p d ++ SearchNear dl p d ++ SearchNear dr p d := by
  simp only [SearchNear, SearchArea]
  split
  · simp
  · simp only [List.filter_append]

theorem isAnyPointNear_iff (qt : QuadTree) (p : XY) (d : ℚ) :
    IsAnyPointNear qt p d = true ↔ SearchNear qt p d ≠ [] := by
  induction qt with
  | leaf b ps c =>
    rw [searchNear_leaf]
    simp only [IsAnyPointNear]
    by_cases h : b.IntersectsAABB (boundingBox p d) = true
    · simp only [h, Bool.not_true, Bool.false_eq_true, if_false]
      exact (filter_ne_nil_iff_any _ ps).symm
    · simp only [Bool.not_eq_true] at h
      simp [h]
  | node b ps c ul ur dl dr h1 h2 h3 h4 =>
    rw [searchNear_node]
    simp only [IsAnyPointNear]
    by_cases h : b.IntersectsAABB (boundingBox p d) = true
    · simp only [h, Bool.not_true, Bool.false_eq_true, if_false, Bool.or_eq_true, h1, h2, h3,
        h4, ne_eq, List.append_eq_nil, not_and_or]
    · simp only [Bool.not_eq_true] at h
      simp [h]

/-- C9: on every tree and for every query region, `IsAnyPointArea` is true
exactly when `SearchArea` returns a non-empty list. -/
theorem C9_isAnyPointArea_iff_searchArea_nonempty (qt : QuadTree) (a : AABB) :
    IsAnyPointArea qt a = true ↔ SearchArea qt a ≠ [] :=
  isAnyPointArea_iff qt a

/-- C10: on every tree and for every centre and radius, `IsAnyPointNear` is true
exactly when `SearchNear` returns a non-empty list. -/
theorem C10_isAnyPointNear_iff_searchNear_nonempty (qt : QuadTree) (p : XY) (d : ℚ) :
    IsAnyPointNear qt p d = true ↔ SearchNear qt p d ≠ [] :=
  isAnyPointNear_iff qt p d

/-! ## Stored points and the invariant of reachable trees -/

theorem inv_New (R : AABB) : Inv (New R) := by
  simp [New, Inv, nodeCapacity]

theorem inv_allPoints_contained (qt : QuadTree) (h : Inv qt) :
    ∀ p ∈ allPoints qt, qt.boundary.ContainsPoint p = true := by
  induction qt with
  | leaf b ps c => exact h.2.2
  | node b ps c ul ur dl dr h1 h2 h3 h4 =>
    obtain ⟨-, -, e1, e2, e3, e4, i1, i2, i3, i4⟩ := h
    intro p hp
    simp only [allPoints, List.mem_append] at hp
    simp only [QuadTree.boundary]
    rw [quadrants_cover]
    rcases hp with ((hp | hp) | hp) | hp
    · left; rw [← e1]; exact h1 i1 p hp
    · right; left; rw [← e2]; exact h2 i2 p hp
    · right; right; left; rw [← e3]; exact h3 i3 p hp
    · right; right; right; rw [← e4]; exact h4 i4 p hp

theorem inv_contained (qt : QuadTree) (h : Inv qt) : Contained qt := by
  induction qt with
  | leaf b ps c => exact h.2.2
  | node b ps c ul ur dl dr h1 h2 h3 h4 =>
    have hall := inv_allPoints_contained _ h
    obtain ⟨-, -, -, -, -, -, i1, i2, i3, i4⟩ := h
    exact ⟨hall, h1 i1, h2 i2, h3 i3, h4 i4⟩

theorem contained_allPoints (qt : QuadTree) (h : Contained qt) :
    ∀ p ∈ allPoints qt, qt.boundary.ContainsPoint p = true := by
  cases qt with
  | leaf b ps c => exact h
  | node b ps c ul ur dl dr => exact h.1

/-- Pruning loses nothing: under containment `SearchArea` is the filter of the
stored points. -/
theorem searchArea_eq_filter (qt : QuadTree) (a : AABB) (h : Contained qt) :
    SearchArea qt a = (allPoints qt).filter (fun p => a.ContainsPoint p) := by
  induction qt with
  | leaf b ps c =>
    simp only [SearchArea, allPoints]
    by_cases hi : b.IntersectsAABB a = true
    · simp [hi]
    · simp only [Bool.not_eq_true] at hi
      simp only [hi, Bool.not_false, if_true]
      symm
      rw [List.filter_eq_nil_iff]
      intro p hp hc
      have := intersects_of_contains b a p (h p hp) hc
      rw [hi] at this
      exact Bool.false_ne_true this
  | node b ps c ul ur dl dr h1 h2 h3 h4 =>
    obtain ⟨hall, c1, c2, c3, c4⟩ := h
    simp only [SearchArea]
    by_cases hi : b.IntersectsAABB a = true
    · simp only [hi, Bool.not_true, Bool.false_eq_true, if_false, allPoints, List.filter_append,
        h1 c1, h2 c2, h3 c3, h4 c4]
    · simp only [Bool.not_eq_true] at hi
      simp only [hi, Bool.not_false, if_true]
      symm
      rw [List.filter_eq_nil_iff]
      intro p hp hc
      have := intersects_of_contains b a p (hall p hp) hc
      rw [hi] at this
      exact Bool.false_ne_true this

/-! ## What `Insert` does on a tree satisfying the invariant -/

theorem perm_insert_middle (p : XY) (xs ys ys1 zs : List XY) (h : ys1.Perm (p :: ys)) :
    (xs ++ ys1 ++ zs).Perm (p :: (xs ++ ys ++ zs)) := by
  have h1 : (xs ++ ys1 ++ zs).Perm (xs ++ (p :: ys) ++ zs) :=
    (h.append_left xs).append_right zs
  have h2 : (xs ++ (p :: ys) ++ zs).Perm (p :: (xs ++ ys ++ zs)) := by
    have : xs ++ (p :: ys) ++ zs = xs ++ p :: (ys ++ zs) := by simp
    rw [this]
    have h3 : p :: (xs ++ ys ++ zs) = p :: (xs ++ (ys ++ zs)) := by simp
    rw [h3]
    exact List.perm_middle
  exact h1.trans h2

theorem insertFirst_spec (ins : QuadTree → XY → Option (Bool × QuadTree)) (H : InsertSpec ins)
    (b : AABB) (p : XY) (q q1 : Quad) (hb : b.ContainsPoint p = true)
    (hq : Inv (QuadTree.node b [] 0 q.ul q.ur q.dl q.dr))
    (h : insertFirst ins p q = some q1) :
    Inv (QuadTree.node b [] 0 q1.ul q1.ur q1.dl q1.dr) ∧
    (allPoints (QuadTree.node b [] 0 q1.ul q1.ur q1.dl q1.dr)).Perm
      (p :: allPoints (QuadTree.node b [] 0 q.ul q.ur q.dl q.dr)) := by
  obtain ⟨-, -, e1, e2, e3, e4, i1, i2, i3, i4⟩ := hq
  have hcov := (quadrants_cover b p).1 hb
  simp only [insertFirst] at h
  cases h1 : ins q.ul p with
  | none => simp [h1] at h
  | some r1 =>
    obtain ⟨b1, t1⟩ := r1
    obtain ⟨j1, f1, g1, u1, p1⟩ := H _ _ _ _ i1 h1
    cases b1 with
    | true =>
      simp only [h1, Option.some.injEq] at h
      subst h
      refine ⟨⟨rfl, rfl, by rw [f1, e1], e2, e3, e4, j1, i2, i3, i4⟩, ?_⟩
      simp only [allPoints]
      have := perm_insert_middle p [] _ _ (allPoints q.ur ++ allPoints q.dl ++ allPoints q.dr)
        (p1 rfl)
      simpa [List.append_assoc] using this
    | false =>
      have := u1 rfl
      subst this
      simp only [h1] at h
      cases h2 : ins q.ur p with
      | none => simp [h2] at h
      | some r2 =>
        obtain ⟨b2, t2⟩ := r2
        obtain ⟨j2, f2, g2, u2, p2⟩ := H _ _ _ _ i2 h2
        cases b2 with
        | true =>
          simp only [h2, Option.some.injEq] at h
          subst h
          refine ⟨⟨rfl, rfl, e1, by rw [f2, e2], e3, e4, i1, j2, i3, i4⟩, ?_⟩
          simp only [allPoints]
          have := perm_insert_middle p (allPoints q.ul) _ _
            (allPoints q.dl ++ allPoints q.dr) (p2 rfl)
          simpa [List.append_assoc] using this
        | false =>
          have := u2 rfl
          subst this
          simp only [h2] at h
          cases h3 : ins q.dl p with
          | none => simp [h3] at h
          | some r3 =>
            obtain ⟨b3, t3⟩ := r3
            obtain ⟨j3, f3, g3, u3, p3⟩ := H _ _ _ _ i3 h3
            cases b3 with
            | true =>
              simp only [h3, Option.some.injEq] at h
              subst h
              refine ⟨⟨rfl, rfl, e1, e2, by rw [f3, e3], e4, i1, i2, j3, i4⟩, ?_⟩
              simp only [allPoints]
              have := perm_insert_middle p (allPoints q.ul ++ allPoints q.ur) _ _
                (allPoints q.dr) (p3 rfl)
              simpa [List.append_assoc] using this
            | false =>
              have := u3 rfl
              subst this
              simp only [h3] at h
              cases h4 : ins q.dr p with
              | none => simp [h4] at h
              | some r4 =>
                obtain ⟨b4, t4⟩ := r4
                obtain ⟨j4, f4, g4, u4, p4⟩ := H _ _ _ _ i4 h4
                simp only [h4, Option.some.injEq] at h
                subst h
                have hb4 : b4 = true := by
                  rw [e1] at g1; rw [e2] at g2; rw [e3] at g3; rw [e4] at g4
                  rcases hcov with k | k | k | k
                  · rw [k] at g1; exact absurd g1 (by simp)
                  · rw [k] at g2; exact absurd g2 (by simp)
                  · rw [k] at g3; exact absurd g3 (by simp)
                  · rw [k] at g4; exact g4
                refine ⟨⟨rfl, rfl, e1, e2, e3, by rw [f4, e4], i1, i2, i3, j4⟩, ?_⟩
                simp only [allPoints]
                have := perm_insert_middle p
                  (allPoints q.ul ++ allPoints q.ur ++ allPoints q.dl) _ _ [] (p4 hb4)
                simpa [List.append_assoc] using this

theorem reinsert_spec (ins : QuadTree → XY → Option (Bool × QuadTree)) (H : InsertSpec ins)
    (b : AABB) (ps : List XY) :
    ∀ (q q1 : Quad), (∀ p ∈ ps, b.ContainsPoint p = true) →
      Inv (QuadTree.node b [] 0 q.ul q.ur q.dl q.dr) →
      reinsert ins ps q = some q1 →
      Inv (QuadTree.node b [] 0 q1.ul q1.ur q1.dl q1.dr) ∧
      (allPoints (QuadTree.node b [] 0 q1.ul q1.ur q1.dl q1.dr)).Perm
        (ps ++ allPoints (QuadTree.node b [] 0 q.ul q.ur q.dl q.dr)) := by
  induction ps with
  | nil =>
    intro q q1 _ hq h
    simp only [reinsert, Option.some.injEq] at h
    subst h
    exact ⟨hq, by simp⟩
  | cons p ps ih =>
    intro q q1 hps hq h
    simp only [reinsert] at h
    cases h1 : insertFirst ins p q with
    | none => simp [h1] at h
    | some q2 =>
      simp only [h1] at h
      obtain ⟨i2, p2⟩ := insertFirst_spec ins H b p q q2 (hps p (List.mem_cons_self _ _)) hq h1
      obtain ⟨i3, p3⟩ := ih q2 q1 (fun x hx => hps x (List.mem_cons_of_mem _ hx)) i2 h
      refine ⟨i3, p3.trans ?_⟩
      have : (ps ++ p :: allPoints (QuadTree.node b [] 0 q.ul q.ur q.dl q.dr)).Perm
          (p :: (ps ++ allPoints (QuadTree.node b [] 0 q.ul q.ur q.dl q.dr))) :=
        List.perm_middle
      exact (p2.append_left ps).trans this

theorem inv_fresh_children (b : AABB) :
    Inv (QuadTree.node b [] 0 (New (boxUL b)) (New (boxUR b)) (New (boxDL b)) (New (boxDR b))) :=
  ⟨rfl, rfl, rfl, rfl, rfl, rfl, inv_New _, inv_New _, inv_New _, inv_New _⟩

theorem split_spec (ins : QuadTree → XY → Option (Bool × QuadTree)) (H : InsertSpec ins)
    (b : AABB) (ps : List XY) (c : Nat) (qt1 : QuadTree)
    (hps : ∀ p ∈ ps, b.ContainsPoint p = true)
    (h : split ins (QuadTree.leaf b ps c) = some qt1) :
    ∃ q : Quad, qt1 = QuadTree.node b [] 0 q.ul q.ur q.dl q.dr ∧ Inv qt1 ∧
      (allPoints qt1).Perm ps := by
  simp only [split] at h
  cases h1 : reinsert ins ps ⟨New (boxUL b), New (boxUR b), New (boxDL b), New (boxDR b)⟩ with
  | none => simp [h1] at h
  | some q =>
    simp only [h1, Option.some.injEq] at h
    subst h
    obtain ⟨i1, p1⟩ := reinsert_spec ins H b ps _ q hps (inv_fresh_children b) h1
    refine ⟨q, rfl, i1, ?_⟩
    simpa [allPoints, New] using p1

theorem descend_spec (ins : QuadTree → XY → Option (Bool × QuadTree)) (H : InsertSpec ins)
    (b : AABB) (p : XY) (q : Quad) (r : Bool × QuadTree) (hb : b.ContainsPoint p = true)
    (hq : Inv (QuadTree.node b [] 0 q.ul q.ur q.dl q.dr))
    (h : descend ins p (QuadTree.node b [] 0 q.ul q.ur q.dl q.dr) = some r) :
    r.1 = true ∧ Inv r.2 ∧ r.2.boundary = b ∧
      (allPoints r.2).Perm (p :: allPoints (QuadTree.node b [] 0 q.ul q.ur q.dl q.dr)) := by
  simp only [descend] at h
  cases h1 : insertFirst ins p ⟨q.ul, q.ur, q.dl, q.dr⟩ with
  | none => simp [h1] at h
  | some q1 =>
    simp only [h1, Option.some.injEq] at h
    subst h
    obtain ⟨i1, p1⟩ := insertFirst_spec ins H b p ⟨q.ul, q.ur, q.dl, q.dr⟩ q1 hb hq h1
    exact ⟨rfl, i1, rfl, p1⟩

/-- Every `Insert` call respects the contract, whatever the budget. -/
theorem insert_spec (fuel : Nat) : InsertSpec (Insert fuel) := by
  induction fuel with
  | zero =>
    intro qt p b qt1 _ h
    simp [Insert] at h
  | succ n ih =>
    intro qt p b qt1 hinv h
    rw [Insert] at h
    by_cases hc : qt.boundary.ContainsPoint p = true
    · simp only [hc, Bool.not_true, Bool.false_eq_true, if_false] at h
      cases qt with
      | leaf bd ps c =>
        obtain ⟨hcap, hlen, hps⟩ := hinv
        simp only [QuadTree.points, QuadTree.cap, QuadTree.isLeaf, if_true] at h
        simp only [QuadTree.boundary] at hc
        by_cases hl : ps.length < c
        · simp only [hl, if_true, Option.some.injEq, Prod.mk.injEq] at h
          obtain ⟨rfl, rfl⟩ := h
          refine ⟨⟨hcap, ?_, ?_⟩, rfl, by simp [QuadTree.boundary, hc], by simp, ?_⟩
          · simp only [List.length_append, List.length_singleton]
            omega
          · intro x hx
            simp only [List.mem_append, List.mem_singleton] at hx
            rcases hx with hx | hx
            · exact hps x hx
            · rw [hx]; exact hc
          · intro _
            simp only [QuadTree.appendPoint, allPoints]
            exact (List.perm_append_singleton p ps)
        · simp only [hl, if_false] at h
          cases h1 : split (Insert n) (QuadTree.leaf bd ps c) with
          | none => simp [h1] at h
          | some qt2 =>
            simp only [h1] at h
            obtain ⟨q, rfl, i2, p2⟩ := split_spec (Insert n) ih bd ps c qt2 hps h1
            obtain ⟨r1, r2, r3, r4⟩ := descend_spec (Insert n) ih bd p q (b, qt1) hc i2 h
            simp only at r1 r2 r3 r4
            refine ⟨r2, r3, by simp [QuadTree.boundary, hc, r1], by simp [r1], ?_⟩
            intro _
            exact r4.trans (List.Perm.cons p p2)
      | node bd ps c ul ur dl dr =>
        have hinv2 := hinv
        obtain ⟨rfl, rfl, -⟩ := hinv
        simp only [QuadTree.points, QuadTree.cap, QuadTree.isLeaf, List.length_nil,
          lt_self_iff_false, if_false, Bool.false_eq_true] at h
        simp only [QuadTree.boundary] at hc
        obtain ⟨r1, r2, r3, r4⟩ :=
          descend_spec (Insert n) ih bd p ⟨ul, ur, dl, dr⟩ (b, qt1) hc hinv2 h
        simp only at r1 r2 r3 r4
        exact ⟨r2, r3, by simp [QuadTree.boundary, hc, r1], by simp [r1], fun _ => r4⟩
    · simp only [Bool.not_eq_true] at hc
      simp only [hc, Bool.not_false, if_true, Option.some.injEq, Prod.mk.injEq] at h
      obtain ⟨rfl, rfl⟩ := h
      exact ⟨hinv, rfl, hc.symm, fun _ => rfl, by simp⟩

/-! ## Runs of insertions -/

theorem insertAll_spec (fuel : Nat) (ps : List XY) :
    ∀ (qt qt1 : QuadTree) (acc : List XY), Inv qt → insertAll fuel qt ps = some (acc, qt1) →
      Inv qt1 ∧ qt1.boundary = qt.boundary ∧
      acc = ps.filter (fun p => qt.boundary.ContainsPoint p) ∧
      (allPoints qt1).Perm (acc ++ allPoints qt) := by
  induction ps with
  | nil =>
    intro qt qt1 acc hinv h
    simp only [insertAll, Option.some.injEq, Prod.mk.injEq] at h
    obtain ⟨rfl, rfl⟩ := h
    exact ⟨hinv, rfl, rfl, by simp⟩
  | cons p ps ih =>
    intro qt qt1 acc hinv h
    simp only [insertAll] at h
    cases h1 : Insert fuel qt p with
    | none => simp [h1] at h
    | some r =>
      obtain ⟨b, qt2⟩ := r
      simp only [h1] at h
      cases h2 : insertAll fuel qt2 ps with
      | none => simp [h2] at h
      | some r2 =>
        obtain ⟨acc2, qt3⟩ := r2
        simp only [h2, Option.some.injEq, Prod.mk.injEq] at h
        obtain ⟨rfl, rfl⟩ := h
        obtain ⟨i2, e2, g2, u2, p2⟩ := insert_spec fuel qt p b qt2 hinv h1
        obtain ⟨i3, e3, g3, p3⟩ := ih qt2 qt3 acc2 i2 h2
        rw [e2] at e3 g3
        refine ⟨i3, e3, ?_, ?_⟩
        · cases b with
          | true => simp [List.filter_cons, ← g2, g3]
          | false => simp [List.filter_cons, ← g2, g3]
        · cases b with
          | true =>
            simp only [if_true]
            have h4 : (acc2 ++ allPoints qt2).Perm (acc2 ++ p :: allPoints qt) :=
              (p2 rfl).append_left acc2
            have h5 : (acc2 ++ p :: allPoints qt).Perm (p :: (acc2 ++ allPoints qt)) :=
              List.perm_middle
            exact p3.trans (h4.trans h5)
          | false =>
            simp only [Bool.false_eq_true, if_false]
            rw [u2 rfl] at p3
            exact p3

/-- After a run from `New R` the stored points are the accepted ones, and the
accepted ones are the points of the run that lie in `R`. -/
theorem insertAll_New (fuel : Nat) (R : AABB) (ps acc : List XY) (qt : QuadTree)
    (h : insertAll fuel (New R) ps = some (acc, qt)) :
    Inv qt ∧ qt.boundary = R ∧ acc = ps.filter (fun p => R.ContainsPoint p) ∧
      (allPoints qt).Perm acc := by
  obtain ⟨i1, e1, g1, p1⟩ := insertAll_spec fuel ps (New R) qt acc (inv_New R) h
  refine ⟨i1, e1, g1, ?_⟩
  simpa [New, allPoints] using p1

theorem searchArea_run (fuel : Nat) (R : AABB) (ps acc : List XY) (qt : QuadTree) (a : AABB)
    (h : insertAll fuel (New R) ps = some (acc, qt)) :
    (SearchArea qt a).Perm (acc.filter (fun p => a.ContainsPoint p)) := by
  obtain ⟨i1, -, -, p1⟩ := insertAll_New fuel R ps acc qt h
  rw [searchArea_eq_filter qt a (inv_contained qt i1)]
  exact p1.filter _

/-- C1: after any run of insertions into `New R` in which every call returns,
`SearchArea a` is a permutation of the accepted points that lie in `a`; with
`a = R` it is a permutation of all accepted points, and the accepted points are
the points of the run that lie in `R`, so the order of insertion only permutes
the result. -/
theorem C1_searchArea_perm_accepted (fuel : Nat) (R : AABB) (ps acc : List XY) (qt : QuadTree)
    (a : AABB) (h : insertAll fuel (New R) ps = some (acc, qt)) :
    (SearchArea qt a).Perm (acc.filter (fun p => a.ContainsPoint p)) ∧
    (SearchArea qt R).Perm acc ∧
    acc = ps.filter (fun p => R.ContainsPoint p) := by
  obtain ⟨-, -, g1, -⟩ := insertAll_New fuel R ps acc qt h
  refine ⟨searchArea_run fuel R ps acc qt a h, ?_, g1⟩
  have h1 := searchArea_run fuel R ps acc qt R h
  have h2 : acc.filter (fun p => R.ContainsPoint p) = acc := by
    rw [List.filter_eq_self]
    intro x hx
    rw [g1] at hx
    exact (List.mem_filter.1 hx).2
  rw [h2] at h1
  exact h1

theorem C1_searchArea_perm_accepted_witness :
    (SearchArea
        (QuadTree.node ⟨⟨0, 0⟩, ⟨10, 10⟩⟩ [] 0
          (QuadTree.leaf ⟨⟨-5, 5⟩, ⟨5, 5⟩⟩ [⟨-5, 5⟩, ⟨0, 0⟩] 4)
          (QuadTree.leaf ⟨⟨5, 5⟩, ⟨5, 5⟩⟩ [⟨5, 5⟩] 4)
          (QuadTree.leaf ⟨⟨-5, -5⟩, ⟨5, 5⟩⟩ [⟨-5, -5⟩] 4)
          (QuadTree.leaf ⟨⟨5, -5⟩, ⟨5, 5⟩⟩ [⟨5, -5⟩] 4))
        ⟨⟨5, 5⟩, ⟨5, 5⟩⟩).Perm
      (List.filter (fun p => AABB.ContainsPoint ⟨⟨5, 5⟩, ⟨5, 5⟩⟩ p)
        [⟨5, 5⟩, ⟨-5, 5⟩, ⟨-5, -5⟩, ⟨5, -5⟩, ⟨0, 0⟩]) :=
  (C1_searchArea_perm_accepted 2 ⟨⟨0, 0⟩, ⟨10, 10⟩⟩
    [⟨5, 5⟩, ⟨-5, 5⟩, ⟨-5, -5⟩, ⟨5, -5⟩, ⟨0, 0⟩, ⟨11, 0⟩]
    [⟨5, 5⟩, ⟨-5, 5⟩, ⟨-5, -5⟩, ⟨5, -5⟩, ⟨0, 0⟩] _ ⟨⟨5, 5⟩, ⟨5, 5⟩⟩
    (by norm_num [insertAll, Insert, split, reinsert, insertFirst, descend, New,
      AABB.ContainsPoint, QuadTree.boundary, QuadTree.points, QuadTree.cap,
      QuadTree.appendPoint, QuadTree.isLeaf, nodeCapacity, boxUL, boxUR, boxDL, boxDR])).1

/-! ## Single calls of `Insert` -/

theorem insert_reject (fuel : Nat) (qt : QuadTree) (p : XY)
    (h : qt.boundary.ContainsPoint p = false) : Insert (fuel + 1) qt p = some (false, qt) := by
  rw [Insert]
  simp [h]

theorem insert_leaf_append (fuel : Nat) (b : AABB) (ps : List XY) (c : Nat) (p : XY)
    (hb : b.ContainsPoint p = true) (hl : ps.length < c) :
    Insert (fuel + 1) (QuadTree.leaf b ps c) p = some (true, QuadTree.leaf b (ps ++ [p]) c) := by
  rw [Insert]
  simp [QuadTree.boundary, QuadTree.points, QuadTree.cap, QuadTree.appendPoint, hb, hl]

theorem descend_true (ins : QuadTree → XY → Option (Bool × QuadTree)) (p : XY) (qt : QuadTree)
    (r : Bool × QuadTree) (h : descend ins p qt = some r) : r.1 = true := by
  cases qt with
  | leaf b ps c => simp [descend] at h
  | node b ps c ul ur dl dr =>
    simp only [descend] at h
    cases h1 : insertFirst ins p ⟨ul, ur, dl, dr⟩ with
    | none => simp [h1] at h
    | some q =>
      simp only [h1, Option.some.injEq] at h
      rw [← h]

theorem insert_result (fuel : Nat) (qt : QuadTree) (p : XY) (r : Bool × QuadTree)
    (h : Insert fuel qt p = some r) : r.1 = qt.boundary.ContainsPoint p := by
  cases fuel with
  | zero => simp [Insert] at h
  | succ n =>
    rw [Insert] at h
    by_cases hc : qt.boundary.ContainsPoint p = true
    · simp only [hc, Bool.not_true, Bool.false_eq_true, if_false] at h
      by_cases hl : qt.points.length < qt.cap
      · simp only [hl, if_true, Option.some.injEq] at h
        rw [← h, hc]
      · simp only [hl, if_false] at h
        cases h1 : (if qt.isLeaf = true then split (Insert n) qt else some qt) with
        | none => simp [h1] at h
        | some qt1 =>
          simp only [h1] at h
          rw [hc]
          exact descend_true _ _ _ _ h
    · simp only [Bool.not_eq_true] at hc
      simp only [hc, Bool.not_false, if_true, Option.some.injEq] at h
      rw [← h, hc]

/-- A leaf holding four copies of a point of its region never finishes the
insertion of a fifth copy: every split sends the four copies to one child,
which is again such a leaf. -/
theorem insert_full_duplicate (fuel : Nat) :
    ∀ (b : AABB) (p : XY), b.ContainsPoint p = true →
      Insert fuel (QuadTree.leaf b [p, p, p, p] nodeCapacity) p = none := by
  induction fuel with
  | zero => intro b p _; rfl
  | succ n ih =>
    intro b p hb
    rw [Insert]
    simp only [QuadTree.boundary, hb, QuadTree.points, QuadTree.cap, nodeCapacity,
      List.length_cons, List.length_nil, QuadTree.isLeaf, Bool.not_true, Bool.false_eq_true,
      if_false, if_true, lt_self_iff_false, Nat.reduceAdd]
    cases n with
    | zero => simp [split, reinsert, insertFirst, Insert]
    | succ m =>
      have hcov := (quadrants_cover b p).1 hb
      cases h1 : (boxUL b).ContainsPoint p with
      | true =>
        have k := ih (boxUL b) p h1
        simp [split, reinsert, insertFirst, descend, New, insert_leaf_append, h1,
          nodeCapacity] at k ⊢
        simp [k]
      | false =>
        cases h2 : (boxUR b).ContainsPoint p with
        | true =>
          have k := ih (boxUR b) p h2
          simp [split, reinsert, insertFirst, descend, New, insert_leaf_append, insert_reject,
            QuadTree.boundary, h1, h2, nodeCapacity] at k ⊢
          simp [k]
        | false =>
          cases h3 : (boxDL b).ContainsPoint p with
          | true =>
            have k := ih (boxDL b) p h3
            simp [split, reinsert, insertFirst, descend, New, insert_leaf_append, insert_reject,
              QuadTree.boundary, h1, h2, h3, nodeCapacity] at k ⊢
            simp [k]
          | false =>
            have h4 : (boxDR b).ContainsPoint p = true := by
              rcases hcov with k | k | k | k
              · rw [h1] at k; exact absurd k (by simp)
              · rw [h2] at k; exact absurd k (by simp)
              · rw [h3] at k; exact absurd k (by simp)
              · exact k
            have k := ih (boxDR b) p h4
            simp [split, reinsert, insertFirst, descend, New, insert_leaf_append, insert_reject,
              QuadTree.boundary, h1, h2, h3, h4, nodeCapacity] at k ⊢
            simp [k]

/-! ## A larger budget changes no result -/

theorem insertFirst_mono (ins ins1 : QuadTree → XY → Option (Bool × QuadTree))
    (M : ∀ qt p r, ins qt p = some r → ins1 qt p = some r) (p : XY) (q q1 : Quad)
    (h : insertFirst ins p q = some q1) : insertFirst ins1 p q = some q1 := by
  simp only [insertFirst] at h ⊢
  cases h1 : ins q.ul p with
  | none => simp [h1] at h
  | some r1 =>
    obtain ⟨b1, t1⟩ := r1
    rw [M _ _ _ h1]
    simp only [h1] at h
    cases b1 with
    | true => exact h
    | false =>
      simp only at h ⊢
      cases h2 : ins q.ur p with
      | none => simp [h2] at h
      | some r2 =>
        obtain ⟨b2, t2⟩ := r2
        rw [M _ _ _ h2]
        simp only [h2] at h
        cases b2 with
        | true => exact h
        | false =>
          simp only at h ⊢
          cases h3 : ins q.dl p with
          | none => simp [h3] at h
          | some r3 =>
            obtain ⟨b3, t3⟩ := r3
            rw [M _ _ _ h3]
            simp only [h3] at h
            cases b3 with
            | true => exact h
            | false =>
              simp only at h ⊢
              cases h4 : ins q.dr p with
              | none => simp [h4] at h
              | some r4 =>
                rw [M _ _ _ h4]
                simp only [h4] at h
                exact h

theorem reinsert_mono (ins ins1 : QuadTree → XY → Option (Bool × QuadTree))
    (M : ∀ qt p r, ins qt p = some r → ins1 qt p = some r) (ps : List XY) :
    ∀ (q q1 : Quad), reinsert ins ps q = some q1 → reinsert ins1 ps q = some q1 := by
  induction ps with
  | nil => intro q q1 h; exact h
  | cons p ps ih =>
    intro q q1 h
    simp only [reinsert] at h ⊢
    cases h1 : insertFirst ins p q with
    | none => simp [h1] at h
    | some q2 =>
      rw [insertFirst_mono ins ins1 M p q q2 h1]
      simp only [h1] at h
      exact ih q2 q1 h

theorem split_mono (ins ins1 : QuadTree → XY → Option (Bool × QuadTree))
    (M : ∀ qt p r, ins qt p = some r → ins1 qt p = some r) (qt qt1 : QuadTree)
    (h : split ins qt = some qt1) : split ins1 qt = some qt1 := by
  cases qt with
  | node b ps c ul ur dl dr => exact h
  | leaf b ps c =>
    simp only [split] at h ⊢
    cases h1 : reinsert ins ps ⟨New (boxUL b), New (boxUR b), New (boxDL b), New (boxDR b)⟩ with
    | none => simp [h1] at h
    | some q =>
      rw [reinsert_mono ins ins1 M ps _ q h1]
      simp only [h1] at h
      exact h

theorem descend_mono (ins ins1 : QuadTree → XY → Option (Bool × QuadTree))
    (M : ∀ qt p r, ins qt p = some r → ins1 qt p = some r) (p : XY) (qt : QuadTree)
    (r : Bool × QuadTree) (h : descend ins p qt = some r) : descend ins1 p qt = some r := by
  cases qt with
  | leaf b ps c => simp [descend] at h
  | node b ps c ul ur dl dr =>
    simp only [descend] at h ⊢
    cases h1 : insertFirst ins p ⟨ul, ur, dl, dr⟩ with
    | none => simp [h1] at h
    | some q =>
      rw [insertFirst_mono ins ins1 M p _ q h1]
      simp only [h1] at h
      exact h

theorem insert_mono_succ (fuel : Nat) :
    ∀ (qt : QuadTree) (p : XY) (r : Bool × QuadTree),
      Insert fuel qt p = some r → Insert (fuel + 1) qt p = some r := by
  induction fuel with
  | zero => intro qt p r h; simp [Insert] at h
  | succ n ih =>
    intro qt p r h
    rw [Insert] at h ⊢
    by_cases hc : qt.boundary.ContainsPoint p = true
    · simp only [hc, Bool.not_true, Bool.false_eq_true, if_false] at h ⊢
      by_cases hl : qt.points.length < qt.cap
      · simp only [hl, if_true] at h ⊢
        exact h
      · simp only [hl, if_false] at h ⊢
        by_cases hleaf : qt.isLeaf = true
        · simp only [hleaf, if_true] at h ⊢
          cases h1 : split (Insert n) qt with
          | none => simp [h1] at h
          | some qt1 =>
            rw [split_mono _ _ ih qt qt1 h1]
            simp only [h1] at h
            exact descend_mono _ _ ih p qt1 r h
        · simp only [hleaf, if_false, Bool.false_eq_true] at h ⊢
          exact descend_mono _ _ ih p qt r h
    · simp only [Bool.not_eq_true] at hc
      simp only [hc, Bool.not_false, if_true] at h ⊢
      exact h

/-- A call that returns within a budget returns the same with any larger one. -/
theorem insert_mono (fuel k : Nat) (qt : QuadTree) (p : XY) (r : Bool × QuadTree)
    (h : Insert fuel qt p = some r) : Insert (fuel + k) qt p = some r := by
  induction k with
  | zero => exact h
  | succ k ih => exact insert_mono_succ _ _ _ _ ih

/-! ## The remaining contract statements -/

/-- C2: whenever `Insert` returns, on any tree, the returned boolean is false
exactly when the node's own region does not contain the point and true exactly
when it does. -/
theorem C2_insert_returns_containment (fuel : Nat) (qt : QuadTree) (p : XY) (b : Bool)
    (qt1 : QuadTree) (h : Insert fuel qt p = some (b, qt1)) :
    (b = false ↔ qt.boundary.ContainsPoint p = false) ∧
    (b = true ↔ qt.boundary.ContainsPoint p = true) := by
  have h1 := insert_result fuel qt p (b, qt1) h
  simp only at h1
  rw [h1]
  exact ⟨Iff.rfl, Iff.rfl⟩

theorem C2_insert_returns_containment_witness :
    (true = false ↔
        (QuadTree.node ⟨⟨0, 0⟩, ⟨10, 10⟩⟩ [] 0
          (New ⟨⟨-5, 5⟩, ⟨5, 5⟩⟩) (New ⟨⟨5, 5⟩, ⟨5, 5⟩⟩)
          (New ⟨⟨-5, -5⟩, ⟨5, 5⟩⟩) (New ⟨⟨5, -5⟩, ⟨5, 5⟩⟩)).boundary.ContainsPoint ⟨5, 5⟩
          = false) ∧
    (true = true ↔
        (QuadTree.node ⟨⟨0, 0⟩, ⟨10, 10⟩⟩ [] 0
          (New ⟨⟨-5, 5⟩, ⟨5, 5⟩⟩) (New ⟨⟨5, 5⟩, ⟨5, 5⟩⟩)
          (New ⟨⟨-5, -5⟩, ⟨5, 5⟩⟩) (New ⟨⟨5, -5⟩, ⟨5, 5⟩⟩)).boundary.ContainsPoint ⟨5, 5⟩
          = true) :=
  C2_insert_returns_containment 2 _ ⟨5, 5⟩ true
    (QuadTree.node ⟨⟨0, 0⟩, ⟨10, 10⟩⟩ [] 0
      (New ⟨⟨-5, 5⟩, ⟨5, 5⟩⟩) (QuadTree.leaf ⟨⟨5, 5⟩, ⟨5, 5⟩⟩ [⟨5, 5⟩] 4)
      (New ⟨⟨-5, -5⟩, ⟨5, 5⟩⟩) (New ⟨⟨5, -5⟩, ⟨5, 5⟩⟩))
    (by norm_num [Insert, split, insertFirst, descend, New,
      AABB.ContainsPoint, QuadTree.boundary, QuadTree.points, QuadTree.cap,
      QuadTree.appendPoint, QuadTree.isLeaf, nodeCapacity])

/-- C3: for a point outside the root region of any tree, `Insert` returns false
and the tree after the call is the tree before it. -/
theorem C3_insert_outside_rejected_unchanged (fuel : Nat) (qt : QuadTree) (p : XY)
    (h : qt.boundary.ContainsPoint p = false) :
    Insert (fuel + 1) qt p = some (false, qt) :=
  insert_reject fuel qt p h

theorem C3_insert_outside_rejected_unchanged_witness :
    Insert (0 + 1) (QuadTree.leaf ⟨⟨0, 0⟩, ⟨10, 10⟩⟩ [⟨5, 5⟩] 4) ⟨11, 0⟩ =
      some (false, QuadTree.leaf ⟨⟨0, 0⟩, ⟨10, 10⟩⟩ [⟨5, 5⟩] 4) :=
  C3_insert_outside_rejected_unchanged 0 (QuadTree.leaf ⟨⟨0, 0⟩, ⟨10, 10⟩⟩ [⟨5, 5⟩] 4) ⟨11, 0⟩
    (by norm_num [AABB.ContainsPoint, QuadTree.boundary])

/-- C4, at the failing input: four insertions of the point (1,1) into `New` of
the region with centre (0,0) and half-extents (1,1) all return true and fill
the root leaf; the fifth insertion of (1,1) then has no result, whatever the
recursion budget: every split sends the four copies to the one child that
first contains (1,1), and the call recurses without end.  The same happens in
the region of centre (0,0) and half-extents (0,0), where `split` computes four
children equal to the parent and no arithmetic rounds. -/
theorem C4_fifth_duplicate_never_returns :
    (insertAll 1 (New ⟨⟨0, 0⟩, ⟨1, 1⟩⟩) [⟨1, 1⟩, ⟨1, 1⟩, ⟨1, 1⟩, ⟨1, 1⟩] =
        some ([⟨1, 1⟩, ⟨1, 1⟩, ⟨1, 1⟩, ⟨1, 1⟩],
          QuadTree.leaf ⟨⟨0, 0⟩, ⟨1, 1⟩⟩ [⟨1, 1⟩, ⟨1, 1⟩, ⟨1, 1⟩, ⟨1, 1⟩] 4) ∧
      ∀ fuel : Nat,
        Insert fuel (QuadTree.leaf ⟨⟨0, 0⟩, ⟨1, 1⟩⟩ [⟨1, 1⟩, ⟨1, 1⟩, ⟨1, 1⟩, ⟨1, 1⟩] 4)
          ⟨1, 1⟩ = none) ∧
    (insertAll 1 (New ⟨⟨0, 0⟩, ⟨0, 0⟩⟩) [⟨0, 0⟩, ⟨0, 0⟩, ⟨0, 0⟩, ⟨0, 0⟩] =
        some ([⟨0, 0⟩, ⟨0, 0⟩, ⟨0, 0⟩, ⟨0, 0⟩],
          QuadTree.leaf ⟨⟨0, 0⟩, ⟨0, 0⟩⟩ [⟨0, 0⟩, ⟨0, 0⟩, ⟨0, 0⟩, ⟨0, 0⟩] 4) ∧
      boxUL ⟨⟨0, 0⟩, ⟨0, 0⟩⟩ = ⟨⟨0, 0⟩, ⟨0, 0⟩⟩ ∧
      ∀ fuel : Nat,
        Insert fuel (QuadTree.leaf ⟨⟨0, 0⟩, ⟨0, 0⟩⟩ [⟨0, 0⟩, ⟨0, 0⟩, ⟨0, 0⟩, ⟨0, 0⟩] 4)
          ⟨0, 0⟩ = none) := by
  refine ⟨⟨?_, ?_⟩, ?_, ?_, ?_⟩
  · norm_num [insertAll, Insert, New, AABB.ContainsPoint, QuadTree.boundary, QuadTree.points,
      QuadTree.cap, QuadTree.appendPoint, nodeCapacity]
  · intro fuel
    exact insert_full_duplicate fuel ⟨⟨0, 0⟩, ⟨1, 1⟩⟩ ⟨1, 1⟩ (by norm_num [AABB.ContainsPoint])
  · norm_num [insertAll, Insert, New, AABB.ContainsPoint, QuadTree.boundary, QuadTree.points,
      QuadTree.cap, QuadTree.appendPoint, nodeCapacity]
  · norm_num [boxUL]
  · intro fuel
    exact insert_full_duplicate fuel ⟨⟨0, 0⟩, ⟨0, 0⟩⟩ ⟨0, 0⟩ (by norm_num [AABB.ContainsPoint])

/-- C5, as stated, fails: after the point (0,0) is inserted twice (both calls
return true), `SearchArea` with the root region returns it twice. -/
theorem C5_counterexample_duplicate_returned_twice :
    insertAll 1 (New ⟨⟨0, 0⟩, ⟨1, 1⟩⟩) [⟨0, 0⟩, ⟨0, 0⟩] =
      some ([⟨0, 0⟩, ⟨0, 0⟩], QuadTree.leaf ⟨⟨0, 0⟩, ⟨1, 1⟩⟩ [⟨0, 0⟩, ⟨0, 0⟩] 4) ∧
    SearchArea (QuadTree.leaf ⟨⟨0, 0⟩, ⟨1, 1⟩⟩ [⟨0, 0⟩, ⟨0, 0⟩] 4) ⟨⟨0, 0⟩, ⟨1, 1⟩⟩ =
      [⟨0, 0⟩, ⟨0, 0⟩] ∧
    ¬ (SearchArea (QuadTree.leaf ⟨⟨0, 0⟩, ⟨1, 1⟩⟩ [⟨0, 0⟩, ⟨0, 0⟩] 4)
        ⟨⟨0, 0⟩, ⟨1, 1⟩⟩).count ⟨0, 0⟩ = 1 := by
  have h : SearchArea (QuadTree.leaf ⟨⟨0, 0⟩, ⟨1, 1⟩⟩ [⟨0, 0⟩, ⟨0, 0⟩] 4) ⟨⟨0, 0⟩, ⟨1, 1⟩⟩ =
      [⟨0, 0⟩, ⟨0, 0⟩] := by
    norm_num [SearchArea, AABB.IntersectsAABB, AABB.ContainsPoint]
  refine ⟨?_, h, ?_⟩
  · norm_num [insertAll, Insert, New, AABB.ContainsPoint, QuadTree.boundary, QuadTree.points,
      QuadTree.cap, QuadTree.appendPoint, nodeCapacity]
  · rw [h]
    simp

/-- C5, amended (coordinates are exact numbers): after a run of insertions into
`New R` in which every call returns, for every accepted point `p` and every
query region `a` that contains all of `R`, the number of occurrences of `p` in
`SearchArea a` is the number of times `p` was accepted, which is at least one;
and in the result of any `SearchArea` no point value occurs more often than it
was accepted (so a value occurs twice only if it was accepted twice). -/
theorem C5_searchArea_count_accepted (fuel : Nat) (R : AABB) (ps acc : List XY) (qt : QuadTree)
    (a : AABB) (p : XY) (h : insertAll fuel (New R) ps = some (acc, qt)) (hp : p ∈ acc)
    (ha : ∀ x : XY, R.ContainsPoint x = true → a.ContainsPoint x = true) :
    (SearchArea qt a).count p = acc.count p ∧ 1 ≤ acc.count p ∧
    (∀ (a1 : AABB) (x : XY), (SearchArea qt a1).count x ≤ acc.count x) ∧
    (acc.Nodup → ∀ a1 : AABB, (SearchArea qt a1).Nodup) := by
  obtain ⟨-, -, g1, -⟩ := insertAll_New fuel R ps acc qt h
  have hR : R.ContainsPoint p = true := by
    rw [g1] at hp
    exact (List.mem_filter.1 hp).2
  have h1 := (searchArea_run fuel R ps acc qt a h).count_eq p
  refine ⟨?_, List.one_le_count_iff.2 hp, ?_, ?_⟩
  · rw [h1]
    exact List.count_filter (by simpa using ha p hR)
  · intro a1 x
    rw [(searchArea_run fuel R ps acc qt a1 h).count_eq x]
    exact (List.filter_sublist acc).count_le x
  · intro hnd a1
    exact (searchArea_run fuel R ps acc qt a1 h).symm.nodup (hnd.filter _)

theorem C5_searchArea_count_accepted_witness :
    (SearchArea (QuadTree.leaf ⟨⟨0, 0⟩, ⟨1, 1⟩⟩ [⟨0, 0⟩, ⟨1, 0⟩, ⟨0, 0⟩] 4)
        ⟨⟨0, 0⟩, ⟨2, 2⟩⟩).count ⟨0, 0⟩ =
      List.count (⟨0, 0⟩ : XY) [⟨0, 0⟩, ⟨1, 0⟩, ⟨0, 0⟩] :=
  (C5_searchArea_count_accepted 1 ⟨⟨0, 0⟩, ⟨1, 1⟩⟩ [⟨0, 0⟩, ⟨1, 0⟩, ⟨3, 3⟩, ⟨0, 0⟩]
    [⟨0, 0⟩, ⟨1, 0⟩, ⟨0, 0⟩] _ ⟨⟨0, 0⟩, ⟨2, 2⟩⟩ ⟨0, 0⟩
    (by norm_num [insertAll, Insert, New, AABB.ContainsPoint, QuadTree.boundary,
      QuadTree.points, QuadTree.cap, QuadTree.appendPoint, nodeCapacity])
    (by simp)
    (by
      intro x hx
      rw [containsPoint_iff] at hx ⊢
      obtain ⟨h1, h2, h3, h4⟩ := hx
      norm_num at h1 h2 h3 h4 ⊢
      exact ⟨by linarith, by linarith, by linarith, by linarith⟩)).1

/-! ## The proximity filter -/

theorem distance2_eq (p1 p2 : XY) : distance2 p1 p2 = (p1.X - p2.X) ^ 2 := by
  simp only [distance2]
  ring

theorem searchArea_mem_contains (qt : QuadTree) (a : AABB) :
    ∀ q ∈ SearchArea qt a, a.ContainsPoint q = true := by
  induction qt with
  | leaf b ps c =>
    intro q hq
    simp only [SearchArea] at hq
    split at hq
    · simp at hq
    · exact (List.mem_filter.1 hq).2
  | node b ps c ul ur dl dr h1 h2 h3 h4 =>
    intro q hq
    simp only [SearchArea] at hq
    split at hq
    · simp at hq
    · simp only [List.mem_append] at hq
      rcases hq with ((hq | hq) | hq) | hq
      · exact h1 q hq
      · exact h2 q hq
      · exact h3 q hq
      · exact h4 q hq

theorem boundingBox_contains_distance2 (p q : XY) (d : ℚ)
    (h : (boundingBox p d).ContainsPoint q = true) : distance2 p q ≤ d * d := by
  rw [containsPoint_iff] at h
  simp only [boundingBox] at h
  obtain ⟨h1, h2, -, -⟩ := h
  rw [distance2_eq]
  nlinarith

/-- C19: `distance2` as coded is the squared difference of the X coordinates
alone, whatever the Y coordinates; hence on every tree `SearchNear p d` returns
the very list that `SearchArea` returns for the square region of centre `p` and
half-extents `(d, d)` (no hypothesis on `d` is needed). -/
theorem C19_distance2_ignores_y_searchNear_eq_searchArea :
    (∀ p1 p2 : XY, distance2 p1 p2 = (p1.X - p2.X) ^ 2) ∧
    (∀ (p1 p2 : XY) (y1 y2 : ℚ), distance2 ⟨p1.X, y1⟩ ⟨p2.X, y2⟩ = distance2 p1 p2) ∧
    (∀ (qt : QuadTree) (p : XY) (d : ℚ),
      SearchNear qt p d = SearchArea qt (AABB.mk p (XY.mk d d))) := by
  refine ⟨distance2_eq, ?_, ?_⟩
  · intro p1 p2 y1 y2
    rw [distance2_eq, distance2_eq]
  · intro qt p d
    have hbox : boundingBox p d = AABB.mk p (XY.mk d d) := rfl
    rw [← hbox]
    simp only [SearchNear]
    rw [List.filter_eq_self]
    intro q hq
    have := boundingBox_contains_distance2 p q d (searchArea_mem_contains qt _ q hq)
    simpa using this

/-- C11, at the failing input: on the tree holding the single point (1,1) in
the region of centre (0,0) and half-extents (2,2), `SearchNear` with centre
(0,0) and radius 1 returns (1,1), although its squared Euclidean distance to
the centre is 2, more than the squared radius 1; the candidates filtered by the
Euclidean test give the empty list. -/
theorem C11_searchNear_keeps_point_beyond_radius :
    Insert 1 (New ⟨⟨0, 0⟩, ⟨2, 2⟩⟩) ⟨1, 1⟩ =
      some (true, QuadTree.leaf ⟨⟨0, 0⟩, ⟨2, 2⟩⟩ [⟨1, 1⟩] 4) ∧
    SearchNear (QuadTree.leaf ⟨⟨0, 0⟩, ⟨2, 2⟩⟩ [⟨1, 1⟩] 4) ⟨0, 0⟩ 1 = [⟨1, 1⟩] ∧
    (SearchArea (QuadTree.leaf ⟨⟨0, 0⟩, ⟨2, 2⟩⟩ [⟨1, 1⟩] 4) (boundingBox ⟨0, 0⟩ 1)).filter
      (fun q => decide (((0 : ℚ) - q.X) ^ 2 + ((0 : ℚ) - q.Y) ^ 2 ≤ (1 : ℚ) ^ 2)) = [] := by
  refine ⟨?_, ?_, ?_⟩
  · norm_num [Insert, New, AABB.ContainsPoint, QuadTree.boundary, QuadTree.points,
      QuadTree.cap, QuadTree.appendPoint, nodeCapacity]
  · norm_num [SearchNear, SearchArea, boundingBox, distance2, AABB.IntersectsAABB,
      AABB.ContainsPoint]
  · norm_num [SearchArea, boundingBox, AABB.IntersectsAABB, AABB.ContainsPoint]

/-! ## Invariants of reachable trees -/

theorem inv_storedPoints (qt : QuadTree) (h : Inv qt) : storedPoints qt = allPoints qt := by
  induction qt with
  | leaf b ps c => rfl
  | node b ps c ul ur dl dr h1 h2 h3 h4 =>
    obtain ⟨rfl, -, -, -, -, -, i1, i2, i3, i4⟩ := h
    simp only [storedPoints, allPoints, h1 i1, h2 i2, h3 i3, h4 i4, List.nil_append]

theorem inv_containmentInv (qt : QuadTree) (h : Inv qt) : ContainmentInv qt := by
  induction qt with
  | leaf b ps c => exact h.2.2
  | node b ps c ul ur dl dr h1 h2 h3 h4 =>
    have hall := inv_allPoints_contained _ h
    have hst := inv_storedPoints _ h
    obtain ⟨-, -, -, -, -, -, i1, i2, i3, i4⟩ := h
    refine ⟨?_, h1 i1, h2 i2, h3 i3, h4 i4⟩
    rw [hst]
    exact hall

theorem inv_shape (qt : QuadTree) (h : Inv qt) : Shape qt := by
  induction qt with
  | leaf b ps c => exact h.2.1
  | node b ps c ul ur dl dr h1 h2 h3 h4 =>
    obtain ⟨e, -, -, -, -, -, i1, i2, i3, i4⟩ := h
    exact ⟨e, h1 i1, h2 i2, h3 i3, h4 i4⟩

theorem inv_split (fuel : Nat) (qt qt1 : QuadTree) (h : Inv qt)
    (hs : split (Insert fuel) qt = some qt1) : Inv qt1 := by
  cases qt with
  | node b ps c ul ur dl dr =>
    simp only [split, Option.some.injEq] at hs
    rw [← hs]
    exact h
  | leaf b ps c =>
    obtain ⟨q, -, i1, -⟩ := split_spec (Insert fuel) (insert_spec fuel) b ps c qt1 h.2.2 hs
    exact i1

/-- C12: `New` establishes the containment invariant; every tree reached from
`New R` by `Insert` calls that return satisfies it; and on such a tree a further
`Insert` or `split` that returns yields a tree satisfying it. -/
theorem C12_containment_invariant (fuel : Nat) (R : AABB) (ps acc : List XY) (qt : QuadTree)
    (h : insertAll fuel (New R) ps = some (acc, qt)) :
    ContainmentInv (New R) ∧ ContainmentInv qt ∧
    (∀ (fuel1 : Nat) (p : XY) (b : Bool) (qt1 : QuadTree),
      Insert fuel1 qt p = some (b, qt1) → ContainmentInv qt1) ∧
    (∀ (fuel1 : Nat) (qt1 : QuadTree),
      split (Insert fuel1) qt = some qt1 → ContainmentInv qt1) := by
  obtain ⟨i1, -, -, -⟩ := insertAll_New fuel R ps acc qt h
  refine ⟨inv_containmentInv _ (inv_New R), inv_containmentInv _ i1, ?_, ?_⟩
  · intro fuel1 p b qt1 h1
    exact inv_containmentInv _ (insert_spec fuel1 qt p b qt1 i1 h1).1
  · intro fuel1 qt1 h1
    exact inv_containmentInv _ (inv_split fuel1 qt qt1 i1 h1)

/-- C13: every tree reached from `New R` by `Insert` calls that return has the
shape invariant: each leaf holds at most `nodeCapacity` = 4 points and each
internal node has four children and an empty buffer of its own. -/
theorem C13_shape_invariant (fuel : Nat) (R : AABB) (ps acc : List XY) (qt : QuadTree)
    (h : insertAll fuel (New R) ps = some (acc, qt)) :
    Shape qt ∧ nodeCapacity = 4 :=
  ⟨inv_shape qt (insertAll_New fuel R ps acc qt h).1, rfl⟩

theorem storedPoints_allPoints (qt : QuadTree) : ∀ p ∈ allPoints qt, p ∈ storedPoints qt := by
  induction qt with
  | leaf b ps c => intro p hp; exact hp
  | node b ps c ul ur dl dr h1 h2 h3 h4 =>
    intro p hp
    simp only [allPoints, List.mem_append] at hp
    simp only [storedPoints, List.mem_append]
    rcases hp with ((hp | hp) | hp) | hp
    · exact Or.inl (Or.inl (Or.inl (Or.inr (h1 p hp))))
    · exact Or.inl (Or.inl (Or.inr (h2 p hp)))
    · exact Or.inl (Or.inr (h3 p hp))
    · exact Or.inr (h4 p hp)

theorem containmentInv_contained (qt : QuadTree) (h : ContainmentInv qt) : Contained qt := by
  induction qt with
  | leaf b ps c => exact h
  | node b ps c ul ur dl dr h1 h2 h3 h4 =>
    obtain ⟨hall, c1, c2, c3, c4⟩ := h
    exact ⟨fun p hp => hall p (storedPoints_allPoints _ p hp), h1 c1, h2 c2, h3 c3, h4 c4⟩

/-- C14: on every tree satisfying the containment invariant, `SearchArea a` is,
as a list, the traversal without pruning (leaf buffers in stored order, children
in the order UL, UR, DL, DR) filtered by `a.ContainsPoint`; the trees reached
from `New R` by insertions satisfy the invariant. -/
theorem C14_pruning_sound (qt : QuadTree) (a : AABB) (h : ContainmentInv qt) :
    SearchArea qt a = (allPoints qt).filter (fun p => a.ContainsPoint p) ∧
    (∀ (fuel : Nat) (R : AABB) (ps acc : List XY) (qt1 : QuadTree),
      insertAll fuel (New R) ps = some (acc, qt1) → ContainmentInv qt1) :=
  ⟨searchArea_eq_filter qt a (containmentInv_contained qt h),
    fun fuel R ps acc qt1 h1 =>
      inv_containmentInv qt1 (insertAll_New fuel R ps acc qt1 h1).1⟩

/-! ## Frame: regions are fixed and internal nodes stay internal -/

theorem sameFrame_refl (qt : QuadTree) : SameFrame qt qt := by
  induction qt with
  | leaf b ps c => rfl
  | node b ps c ul ur dl dr h1 h2 h3 h4 => exact ⟨rfl, h1, h2, h3, h4⟩

theorem insertFirst_frame (ins : QuadTree → XY → Option (Bool × QuadTree))
    (H : ∀ qt p r, ins qt p = some r → SameFrame qt r.2) (p : XY) (q q1 : Quad)
    (h : insertFirst ins p q = some q1) :
    SameFrame q.ul q1.ul ∧ SameFrame q.ur q1.ur ∧ SameFrame q.dl q1.dl ∧
      SameFrame q.dr q1.dr := by
  simp only [insertFirst] at h
  cases h1 : ins q.ul p with
  | none => simp [h1] at h
  | some r1 =>
    obtain ⟨b1, t1⟩ := r1
    have f1 := H _ _ _ h1
    simp only [h1] at h
    cases b1 with
    | true =>
      simp only [Option.some.injEq] at h
      subst h
      exact ⟨f1, sameFrame_refl _, sameFrame_refl _, sameFrame_refl _⟩
    | false =>
      simp only at h
      cases h2 : ins q.ur p with
      | none => simp [h2] at h
      | some r2 =>
        obtain ⟨b2, t2⟩ := r2
        have f2 := H _ _ _ h2
        simp only [h2] at h
        cases b2 with
        | true =>
          simp only [Option.some.injEq] at h
          subst h
          exact ⟨f1, f2, sameFrame_refl _, sameFrame_refl _⟩
        | false =>
          simp only at h
          cases h3 : ins q.dl p with
          | none => simp [h3] at h
          | some r3 =>
            obtain ⟨b3, t3⟩ := r3
            have f3 := H _ _ _ h3
            simp only [h3] at h
            cases b3 with
            | true =>
              simp only [Option.some.injEq] at h
              subst h
              exact ⟨f1, f2, f3, sameFrame_refl _⟩
            | false =>
              simp only at h
              cases h4 : ins q.dr p with
              | none => simp [h4] at h
              | some r4 =>
                have f4 := H _ _ _ h4
                simp only [h4, Option.some.injEq] at h
                subst h
                exact ⟨f1, f2, f3, f4⟩

theorem descend_frame (ins : QuadTree → XY → Option (Bool × QuadTree))
    (H : ∀ qt p r, ins qt p = some r → SameFrame qt r.2) (p : XY) (qt : QuadTree)
    (r : Bool × QuadTree) (h : descend ins p qt = some r) : SameFrame qt r.2 := by
  cases qt with
  | leaf b ps c => simp [descend] at h
  | node b ps c ul ur dl dr =>
    simp only [descend] at h
    cases h1 : insertFirst ins p ⟨ul, ur, dl, dr⟩ with
    | none => simp [h1] at h
    | some q =>
      simp only [h1, Option.some.injEq] at h
      subst h
      obtain ⟨f1, f2, f3, f4⟩ := insertFirst_frame ins H p _ q h1
      exact ⟨rfl, f1, f2, f3, f4⟩

theorem sameFrame_boundary (qt qt1 : QuadTree) (h : SameFrame qt qt1) :
    qt1.boundary = qt.boundary := by
  cases qt with
  | leaf b ps c => exact h
  | node b ps c ul ur dl dr =>
    cases qt1 with
    | leaf b1 ps1 c1 => exact absurd h (by simp [SameFrame])
    | node b1 ps1 c1 ul1 ur1 dl1 dr1 => exact h.1

theorem split_boundary (ins : QuadTree → XY → Option (Bool × QuadTree)) (qt qt1 : QuadTree)
    (h : split ins qt = some qt1) : qt1.boundary = qt.boundary := by
  cases qt with
  | node b ps c ul ur dl dr =>
    simp only [split, Option.some.injEq] at h
    rw [← h]
  | leaf b ps c =>
    simp only [split] at h
    cases h1 : reinsert ins ps ⟨New (boxUL b), New (boxUR b), New (boxDL b), New (boxDR b)⟩ with
    | none => simp [h1] at h
    | some q =>
      simp only [h1, Option.some.injEq] at h
      rw [← h]
      rfl

theorem insert_frame (fuel : Nat) :
    ∀ (qt : QuadTree) (p : XY) (r : Bool × QuadTree),
      Insert fuel qt p = some r → SameFrame qt r.2 := by
  induction fuel with
  | zero => intro qt p r h; simp [Insert] at h
  | succ n ih =>
    intro qt p r h
    rw [Insert] at h
    by_cases hc : qt.boundary.ContainsPoint p = true
    · simp only [hc, Bool.not_true, Bool.false_eq_true, if_false] at h
      by_cases hl : qt.points.length < qt.cap
      · simp only [hl, if_true, Option.some.injEq] at h
        subst h
        cases qt with
        | leaf b ps c => rfl
        | node b ps c ul ur dl dr =>
          exact ⟨rfl, sameFrame_refl _, sameFrame_refl _, sameFrame_refl _, sameFrame_refl _⟩
      · simp only [hl, if_false] at h
        cases qt with
        | leaf b ps c =>
          simp only [QuadTree.isLeaf, if_true] at h
          cases h1 : split (Insert n) (QuadTree.leaf b ps c) with
          | none => simp [h1] at h
          | some qt1 =>
            simp only [h1] at h
            have e1 := split_boundary _ _ _ h1
            have e2 := sameFrame_boundary _ _ (descend_frame _ ih p qt1 r h)
            simp only [SameFrame]
            rw [e2, e1]
            rfl
        | node b ps c ul ur dl dr =>
          simp only [QuadTree.isLeaf, Bool.false_eq_true, if_false] at h
          exact descend_frame _ ih p _ r h
    · simp only [Bool.not_eq_true] at hc
      simp only [hc, Bool.not_false, if_true, Option.some.injEq] at h
      subst h
      exact sameFrame_refl qt

/-- C17: whenever `Insert` returns, on any tree, the tree after the call has
the same region at its root, and every node that was internal before is still
internal, with the same region, and so recursively for its four children (in
particular the regions of the children are unchanged). -/
theorem C17_insert_keeps_frame (fuel : Nat) (qt : QuadTree) (p : XY) (b : Bool) (qt1 : QuadTree)
    (h : Insert fuel qt p = some (b, qt1)) :
    qt1.boundary = qt.boundary ∧ SameFrame qt qt1 ∧
    (qt.isLeaf = false → qt1.isLeaf = false) := by
  have hf := insert_frame fuel qt p (b, qt1) h
  refine ⟨sameFrame_boundary _ _ hf, hf, ?_⟩
  intro hl
  cases qt with
  | leaf b0 ps c => simp [QuadTree.isLeaf] at hl
  | node b0 ps c ul ur dl dr =>
    cases qt1 with
    | leaf b1 ps1 c1 => exact absurd hf (by simp [SameFrame])
    | node b1 ps1 c1 ul1 ur1 dl1 dr1 => rfl

/-! ## What `split` does to a leaf -/

theorem insertFirst_leaves (n : Nat) (p : XY) (b1 b2 b3 b4 : AABB) (l1 l2 l3 l4 : List XY)
    (h1 : l1.length < 4) (h2 : l2.length < 4) (h3 : l3.length < 4) (h4 : l4.length < 4) :
    insertFirst (Insert (n + 1)) p
        ⟨QuadTree.leaf b1 l1 4, QuadTree.leaf b2 l2 4, QuadTree.leaf b3 l3 4,
          QuadTree.leaf b4 l4 4⟩ =
      some ⟨QuadTree.leaf b1 (l1 ++ [p].filter (fun x => b1.ContainsPoint x)) 4,
        QuadTree.leaf b2
          (l2 ++ [p].filter (fun x => !b1.ContainsPoint x && b2.ContainsPoint x)) 4,
        QuadTree.leaf b3
          (l3 ++ [p].filter
            (fun x => !b1.ContainsPoint x && !b2.ContainsPoint x && b3.ContainsPoint x)) 4,
        QuadTree.leaf b4
          (l4 ++ [p].filter
            (fun x => !b1.ContainsPoint x && !b2.ContainsPoint x && !b3.ContainsPoint x &&
              b4.ContainsPoint x)) 4⟩ := by
  cases c1 : b1.ContainsPoint p <;> cases c2 : b2.ContainsPoint p <;>
    cases c3 : b3.ContainsPoint p <;> cases c4 : b4.ContainsPoint p <;>
    simp [insertFirst, insert_leaf_append, insert_reject, QuadTree.boundary, List.filter_cons,
      c1, c2, c3, c4, h1, h2, h3, h4]

theorem reinsert_leaves (n : Nat) (b1 b2 b3 b4 : AABB) (ps : List XY) :
    ∀ (l1 l2 l3 l4 : List XY),
      l1.length + l2.length + l3.length + l4.length + ps.length ≤ 4 →
      reinsert (Insert (n + 1)) ps
          ⟨QuadTree.leaf b1 l1 4, QuadTree.leaf b2 l2 4, QuadTree.leaf b3 l3 4,
            QuadTree.leaf b4 l4 4⟩ =
        some ⟨QuadTree.leaf b1 (l1 ++ ps.filter (fun x => b1.ContainsPoint x)) 4,
          QuadTree.leaf b2
            (l2 ++ ps.filter (fun x => !b1.ContainsPoint x && b2.ContainsPoint x)) 4,
          QuadTree.leaf b3
            (l3 ++ ps.filter
              (fun x => !b1.ContainsPoint x && !b2.ContainsPoint x && b3.ContainsPoint x)) 4,
          QuadTree.leaf b4
            (l4 ++ ps.filter
              (fun x => !b1.ContainsPoint x && !b2.ContainsPoint x && !b3.ContainsPoint x &&
                b4.ContainsPoint x)) 4⟩ := by
  induction ps with
  | nil => intro l1 l2 l3 l4 _; simp [reinsert]
  | cons p ps ih =>
    intro l1 l2 l3 l4 hlen
    simp only [List.length_cons] at hlen
    rw [reinsert, insertFirst_leaves n p b1 b2 b3 b4 l1 l2 l3 l4 (by omega) (by omega) (by omega)
      (by omega)]
    simp only
    rw [ih]
    · cases c1 : b1.ContainsPoint p <;> cases c2 : b2.ContainsPoint p <;>
        cases c3 : b3.ContainsPoint p <;> cases c4 : b4.ContainsPoint p <;>
        simp [List.filter_cons, c1, c2, c3, c4]
    · have k1 : ([p].filter (fun x => b1.ContainsPoint x)).length +
          ([p].filter (fun x => !b1.ContainsPoint x && b2.ContainsPoint x)).length +
          ([p].filter
            (fun x => !b1.ContainsPoint x && !b2.ContainsPoint x && b3.ContainsPoint x)).length +
          ([p].filter
            (fun x => !b1.ContainsPoint x && !b2.ContainsPoint x && !b3.ContainsPoint x &&
              b4.ContainsPoint x)).length ≤ 1 := by
        cases c1 : b1.ContainsPoint p <;> cases c2 : b2.ContainsPoint p <;>
          cases c3 : b3.ContainsPoint p <;> cases c4 : b4.ContainsPoint p <;>
          simp [List.filter_cons, c1, c2, c3, c4]
      simp only [List.length_append]
      omega

/-- With a budget of at least one level, `split` turns a leaf holding at most
four points into an internal node with a nil buffer whose children are leaves
over the quadrant boxes, each holding, in the original order, the points whose
first containing quadrant it is. -/
theorem split_leaf_eq (n : Nat) (b : AABB) (ps : List XY) (c : Nat) (h : ps.length ≤ 4) :
    split (Insert (n + 1)) (QuadTree.leaf b ps c) =
      some (QuadTree.node b [] 0
        (QuadTree.leaf (boxUL b) (ps.filter (firstUL b)) nodeCapacity)
        (QuadTree.leaf (boxUR b) (ps.filter (firstUR b)) nodeCapacity)
        (QuadTree.leaf (boxDL b) (ps.filter (firstDL b)) nodeCapacity)
        (QuadTree.leaf (boxDR b) (ps.filter (firstDR b)) nodeCapacity)) := by
  have k := reinsert_leaves n (boxUL b) (boxUR b) (boxDL b) (boxDR b) ps [] [] [] []
    (by simpa using h)
  simp only [split, New, nodeCapacity, k, List.nil_append]
  rfl

theorem first_quadrants_perm (b : AABB) (ps : List XY)
    (h : ∀ p ∈ ps, b.ContainsPoint p = true) :
    (ps.filter (firstUL b) ++ ps.filter (firstUR b) ++ ps.filter (firstDL b) ++
      ps.filter (firstDR b)).Perm ps := by
  induction ps with
  | nil => simp
  | cons p ps ih =>
    have hp := (quadrants_cover b p).1 (h p (List.mem_cons_self _ _))
    have ih1 := ih (fun x hx => h x (List.mem_cons_of_mem _ hx))
    cases c1 : (boxUL b).ContainsPoint p with
    | true =>
      have e1 : firstUL b p = true := by simp [firstUL, c1]
      have e2 : firstUR b p = false := by simp [firstUR, c1]
      have e3 : firstDL b p = false := by simp [firstDL, c1]
      have e4 : firstDR b p = false := by simp [firstDR, c1]
      simp only [List.filter_cons, e1, e2, e3, e4, if_true, if_false, Bool.false_eq_true]
      have := perm_insert_middle p [] _ _
        (ps.filter (firstUR b) ++ ps.filter (firstDL b) ++ ps.filter (firstDR b))
        (List.Perm.refl (p :: ps.filter (firstUL b)))
      simp only [List.nil_append, ← List.append_assoc] at this
      exact this.trans (List.Perm.cons p ih1)
    | false =>
      cases c2 : (boxUR b).ContainsPoint p with
      | true =>
        have e1 : firstUL b p = false := by simp [firstUL, c1]
        have e2 : firstUR b p = true := by simp [firstUR, c1, c2]
        have e3 : firstDL b p = false := by simp [firstDL, c1, c2]
        have e4 : firstDR b p = false := by simp [firstDR, c1, c2]
        simp only [List.filter_cons, e1, e2, e3, e4, if_true, if_false, Bool.false_eq_true]
        have := perm_insert_middle p (ps.filter (firstUL b)) _ _
          (ps.filter (firstDL b) ++ ps.filter (firstDR b))
          (List.Perm.refl (p :: ps.filter (firstUR b)))
        simp only [← List.append_assoc] at this
        exact this.trans (List.Perm.cons p ih1)
      | false =>
        cases c3 : (boxDL b).ContainsPoint p with
        | true =>
          have e1 : firstUL b p = false := by simp [firstUL, c1]
          have e2 : firstUR b p = false := by simp [firstUR, c1, c2]
          have e3 : firstDL b p = true := by simp [firstDL, c1, c2, c3]
          have e4 : firstDR b p = false := by simp [firstDR, c1, c2, c3]
          simp only [List.filter_cons, e1, e2, e3, e4, if_true, if_false, Bool.false_eq_true]
          have := perm_insert_middle p (ps.filter (firstUL b) ++ ps.filter (firstUR b)) _ _
            (ps.filter (firstDR b)) (List.Perm.refl (p :: ps.filter (firstDL b)))
          exact this.trans (List.Perm.cons p ih1)
        | false =>
          have c4 : (boxDR b).ContainsPoint p = true := by
            rcases hp with k | k | k | k
            · rw [c1] at k; exact absurd k (by simp)
            · rw [c2] at k; exact absurd k (by simp)
            · rw [c3] at k; exact absurd k (by simp)
            · exact k
          have e1 : firstUL b p = false := by simp [firstUL, c1]
          have e2 : firstUR b p = false := by simp [firstUR, c1, c2]
          have e3 : firstDL b p = false := by simp [firstDL, c1, c2, c3]
          have e4 : firstDR b p = true := by simp [firstDR, c1, c2, c3, c4]
          simp only [List.filter_cons, e1, e2, e3, e4, if_true, if_false, Bool.false_eq_true]
          have := perm_insert_middle p
            (ps.filter (firstUL b) ++ ps.filter (firstUR b) ++ ps.filter (firstDL b)) _ _ []
            (List.Perm.refl (p :: ps.filter (firstDR b)))
          simp only [List.append_nil] at this
          exact this.trans (List.Perm.cons p ih1)

/-- C16: with a budget of at least one level, `split` turns a leaf whose
buffer holds at most 4 points, all in its region, into an internal node with
a nil buffer and four leaf children over the quadrant boxes; each child's
buffer is the sub-list, in the original order, of the points whose first
containing quadrant (order UL, UR, DL, DR) it is, and the four buffers together
are a permutation of the original buffer. -/
theorem C16_split_redistributes (n : Nat) (b : AABB) (ps : List XY) (c : Nat)
    (hlen : ps.length ≤ nodeCapacity) (hin : ∀ p ∈ ps, b.ContainsPoint p = true) :
    split (Insert (n + 1)) (QuadTree.leaf b ps c) =
      some (QuadTree.node b [] 0
        (QuadTree.leaf (boxUL b) (ps.filter (firstUL b)) nodeCapacity)
        (QuadTree.leaf (boxUR b) (ps.filter (firstUR b)) nodeCapacity)
        (QuadTree.leaf (boxDL b) (ps.filter (firstDL b)) nodeCapacity)
        (QuadTree.leaf (boxDR b) (ps.filter (firstDR b)) nodeCapacity)) ∧
    (ps.filter (firstUL b) ++ ps.filter (firstUR b) ++ ps.filter (firstDL b) ++
      ps.filter (firstDR b)).Perm ps :=
  ⟨split_leaf_eq n b ps c hlen, first_quadrants_perm b ps hin⟩

/-! ## First-match ownership -/

theorem insert_false_unchanged (fuel : Nat) (qt : QuadTree) (p : XY) (qt1 : QuadTree)
    (h : Insert fuel qt p = some (false, qt1)) : qt1 = qt := by
  have h1 := insert_result fuel qt p (false, qt1) h
  simp only at h1
  cases fuel with
  | zero => simp [Insert] at h
  | succ n =>
    rw [insert_reject n qt p h1.symm] at h
    simp only [Option.some.injEq, Prod.mk.injEq, true_and] at h
    exact h.symm

theorem insert_true_changes (fuel : Nat) (qt : QuadTree) (p : XY) (qt1 : QuadTree)
    (hinv : Inv qt) (h : Insert fuel qt p = some (true, qt1)) : qt1 ≠ qt := by
  intro e
  have hp := (insert_spec fuel qt p true qt1 hinv h).2.2.2.2 rfl
  rw [e] at hp
  have := hp.length_eq
  simp at this

theorem insert_node_first_match (n : Nat) (b : AABB) (ps : List XY) (c : Nat)
    (ul ur dl dr : QuadTree) (p : XY) (r : Bool) (qt1 : QuadTree)
    (hinv : Inv (QuadTree.node b ps c ul ur dl dr)) (hb : b.ContainsPoint p = true)
    (h : Insert (n + 1) (QuadTree.node b ps c ul ur dl dr) p = some (r, qt1)) :
    (ul.boundary.ContainsPoint p = true ∧
      ∃ ul1, Insert n ul p = some (true, ul1) ∧ ul1 ≠ ul ∧
        qt1 = QuadTree.node b ps c ul1 ur dl dr) ∨
    (ul.boundary.ContainsPoint p = false ∧ ur.boundary.ContainsPoint p = true ∧
      ∃ ur1, Insert n ur p = some (true, ur1) ∧ ur1 ≠ ur ∧
        qt1 = QuadTree.node b ps c ul ur1 dl dr) ∨
    (ul.boundary.ContainsPoint p = false ∧ ur.boundary.ContainsPoint p = false ∧
      dl.boundary.ContainsPoint p = true ∧
      ∃ dl1, Insert n dl p = some (true, dl1) ∧ dl1 ≠ dl ∧
        qt1 = QuadTree.node b ps c ul ur dl1 dr) ∨
    (ul.boundary.ContainsPoint p = false ∧ ur.boundary.ContainsPoint p = false ∧
      dl.boundary.ContainsPoint p = false ∧ dr.boundary.ContainsPoint p = true ∧
      ∃ dr1, Insert n dr p = some (true, dr1) ∧ dr1 ≠ dr ∧
        qt1 = QuadTree.node b ps c ul ur dl dr1) := by
  obtain ⟨hps, hc, e1, e2, e3, e4, i1, i2, i3, i4⟩ := hinv
  subst hps hc
  have hcov := (quadrants_cover b p).1 hb
  rw [← e1, ← e2, ← e3, ← e4] at hcov
  rw [Insert] at h
  simp only [QuadTree.boundary, hb, QuadTree.points, QuadTree.cap, QuadTree.isLeaf,
    List.length_nil, lt_self_iff_false, Bool.not_true, Bool.false_eq_true, if_false, descend,
    insertFirst] at h
  cases h1 : Insert n ul p with
  | none => simp [h1] at h
  | some r1 =>
    obtain ⟨b1, t1⟩ := r1
    have g1 := insert_result n ul p _ h1
    simp only at g1
    simp only [h1] at h
    cases b1 with
    | true =>
      simp only [Option.some.injEq, Prod.mk.injEq] at h
      exact Or.inl ⟨g1.symm, t1, rfl, insert_true_changes n ul p t1 i1 h1, h.2.symm⟩
    | false =>
      have u1 := insert_false_unchanged n ul p t1 h1
      subst u1
      simp only at h
      cases h2 : Insert n ur p with
      | none => simp [h2] at h
      | some r2 =>
        obtain ⟨b2, t2⟩ := r2
        have g2 := insert_result n ur p _ h2
        simp only at g2
        simp only [h2] at h
        cases b2 with
        | true =>
          simp only [Option.some.injEq, Prod.mk.injEq] at h
          exact Or.inr (Or.inl ⟨g1.symm, g2.symm, t2, rfl,
            insert_true_changes n ur p t2 i2 h2, h.2.symm⟩)
        | false =>
          have u2 := insert_false_unchanged n ur p t2 h2
          subst u2
          simp only at h
          cases h3 : Insert n dl p with
          | none => simp [h3] at h
          | some r3 =>
            obtain ⟨b3, t3⟩ := r3
            have g3 := insert_result n dl p _ h3
            simp only at g3
            simp only [h3] at h
            cases b3 with
            | true =>
              simp only [Option.some.injEq, Prod.mk.injEq] at h
              exact Or.inr (Or.inr (Or.inl ⟨g1.symm, g2.symm, g3.symm, t3, rfl,
                insert_true_changes n dl p t3 i3 h3, h.2.symm⟩))
            | false =>
              have u3 := insert_false_unchanged n dl p t3 h3
              subst u3
              simp only at h
              cases h4 : Insert n dr p with
              | none => simp [h4] at h
              | some r4 =>
                obtain ⟨b4, t4⟩ := r4
                have g4 := insert_result n dr p _ h4
                simp only at g4
                simp only [h4, Option.some.injEq, Prod.mk.injEq] at h
                have c4 : dr.boundary.ContainsPoint p = true := by
                  rcases hcov with k | k | k | k
                  · rw [k] at g1; exact absurd g1 (by simp)
                  · rw [k] at g2; exact absurd g2 (by simp)
                  · rw [k] at g3; exact absurd g3 (by simp)
                  · exact k
                rw [c4] at g4
                subst g4
                exact Or.inr (Or.inr (Or.inr ⟨g1.symm, g2.symm, g3.symm, c4, t4, rfl,
                  insert_true_changes n dr p t4 i4 h4, h.2.symm⟩))

/-- C15, amended (coordinates are exact numbers): on an internal node of a tree
built by `New` and `Insert` (nil buffer, children over the four quadrant boxes
of its region), for a point `p` of the node's region, an `Insert` call that
returns has changed exactly one child, the first of UL, UR, DL, DR whose region
contains `p` (the result of `Insert` on that child), the three others are as
before, and the number of stored copies of `p` has grown by exactly one. -/
theorem C15_first_match_ownership (n : Nat) (b : AABB) (ps : List XY) (c : Nat)
    (ul ur dl dr : QuadTree) (p : XY) (r : Bool) (qt1 : QuadTree)
    (hinv : Inv (QuadTree.node b ps c ul ur dl dr)) (hb : b.ContainsPoint p = true)
    (h : Insert (n + 1) (QuadTree.node b ps c ul ur dl dr) p = some (r, qt1)) :
    ((ul.boundary.ContainsPoint p = true ∧
        ∃ ul1, Insert n ul p = some (true, ul1) ∧ ul1 ≠ ul ∧
          qt1 = QuadTree.node b ps c ul1 ur dl dr) ∨
      (ul.boundary.ContainsPoint p = false ∧ ur.boundary.ContainsPoint p = true ∧
        ∃ ur1, Insert n ur p = some (true, ur1) ∧ ur1 ≠ ur ∧
          qt1 = QuadTree.node b ps c ul ur1 dl dr) ∨
      (ul.boundary.ContainsPoint p = false ∧ ur.boundary.ContainsPoint p = false ∧
        dl.boundary.ContainsPoint p = true ∧
        ∃ dl1, Insert n dl p = some (true, dl1) ∧ dl1 ≠ dl ∧
          qt1 = QuadTree.node b ps c ul ur dl1 dr) ∨
      (ul.boundary.ContainsPoint p = false ∧ ur.boundary.ContainsPoint p = false ∧
        dl.boundary.ContainsPoint p = false ∧ dr.boundary.ContainsPoint p = true ∧
        ∃ dr1, Insert n dr p = some (true, dr1) ∧ dr1 ≠ dr ∧
          qt1 = QuadTree.node b ps c ul ur dl dr1)) ∧
    (allPoints qt1).count p = (allPoints (QuadTree.node b ps c ul ur dl dr)).count p + 1 := by
  refine ⟨insert_node_first_match n b ps c ul ur dl dr p r qt1 hinv hb h, ?_⟩
  obtain ⟨-, -, g, -, hp⟩ := insert_spec (n + 1) _ p r qt1 hinv h
  simp only [QuadTree.boundary, hb] at g
  rw [(hp g).count_eq p]
  simp

/-! ## Termination of `Insert` -/

theorem insertFirst_total (ins : QuadTree → XY → Option (Bool × QuadTree)) (p : XY) (q : Quad)
    (h1 : ∃ r, ins q.ul p = some r) (h2 : ∃ r, ins q.ur p = some r)
    (h3 : ∃ r, ins q.dl p = some r) (h4 : ∃ r, ins q.dr p = some r) :
    ∃ q1, insertFirst ins p q = some q1 := by
  obtain ⟨⟨b1, t1⟩, e1⟩ := h1
  obtain ⟨⟨b2, t2⟩, e2⟩ := h2
  obtain ⟨⟨b3, t3⟩, e3⟩ := h3
  obtain ⟨⟨b4, t4⟩, e4⟩ := h4
  simp only [insertFirst, e1, e2, e3, e4]
  cases b1 <;> cases b2 <;> cases b3 <;> cases b4 <;> simp

theorem contains_diff_le (b : AABB) (u v : XY) (hu : b.ContainsPoint u = true)
    (hv : b.ContainsPoint v = true) :
    |u.X - v.X| ≤ 2 * b.halfDim.X ∧ |u.Y - v.Y| ≤ 2 * b.halfDim.Y := by
  rw [containsPoint_iff] at hu hv
  obtain ⟨a1, a2, a3, a4⟩ := hu
  obtain ⟨c1, c2, c3, c4⟩ := hv
  constructor <;> rw [abs_le] <;> constructor <;> linarith

theorem exists_pow_sep (h d : ℚ) (hd : 0 < d) : ∃ N : ℕ, 2 * h < d * 2 ^ N := by
  obtain ⟨n, hn⟩ := exists_nat_gt (2 * h / d)
  refine ⟨n, ?_⟩
  have h1 : (n : ℚ) < 2 ^ n := by exact_mod_cast Nat.lt_two_pow n
  have h2 : 2 * h < d * n := by
    rw [div_lt_iff₀ hd] at hn
    linarith
  have h3 : d * n < d * 2 ^ n := by
    exact mul_lt_mul_of_pos_left h1 hd
  linarith

/-- A leaf whose region separates two of the five points within `N` halvings
finishes the insertion with a budget of `N + 1` levels. -/
theorem leaf_insert_terminates (N : Nat) :
    ∀ (b : AABB) (l : List XY) (p : XY), l.length ≤ 4 →
      (∀ x ∈ l, b.ContainsPoint x = true) → b.ContainsPoint p = true →
      (l.length = 4 → ∃ u v, u ∈ p :: l ∧ v ∈ p :: l ∧
        (2 * b.halfDim.X < |u.X - v.X| * 2 ^ N ∨ 2 * b.halfDim.Y < |u.Y - v.Y| * 2 ^ N)) →
      ∃ r, Insert (N + 1) (QuadTree.leaf b l nodeCapacity) p = some r := by
  induction N with
  | zero =>
    intro b l p hlen hin hp hsep
    by_cases hl : l.length < 4
    · exact ⟨_, insert_leaf_append 0 b l nodeCapacity p hp (by simpa [nodeCapacity] using hl)⟩
    · exfalso
      obtain ⟨u, v, hu, hv, hs⟩ := hsep (by omega)
      have hall : ∀ x ∈ p :: l, b.ContainsPoint x = true := by
        intro x hx
        rcases List.mem_cons.1 hx with rfl | hx
        · exact hp
        · exact hin x hx
      obtain ⟨k1, k2⟩ := contains_diff_le b u v (hall u hu) (hall v hv)
      simp only [pow_zero, mul_one] at hs
      rcases hs with hs | hs <;> linarith
  | succ M ih =>
    intro b l p hlen hin hp hsep
    by_cases hl : l.length < 4
    · exact ⟨_, insert_leaf_append _ b l nodeCapacity p hp (by simpa [nodeCapacity] using hl)⟩
    · have hl4 : l.length = 4 := by omega
      obtain ⟨u, v, hu, hv, hs⟩ := hsep hl4
      have child : ∀ (bx : AABB) (f : XY → Bool), bx.halfDim.X = b.halfDim.X / 2 →
          bx.halfDim.Y = b.halfDim.Y / 2 → (∀ x, f x = true → bx.ContainsPoint x = true) →
          ∃ r, Insert (M + 1) (QuadTree.leaf bx (l.filter f) nodeCapacity) p = some r := by
        intro bx f ex ey hf
        cases hc : bx.ContainsPoint p with
        | false => exact ⟨_, insert_reject M _ p hc⟩
        | true =>
          apply ih bx (l.filter f) p
          · exact le_trans (List.length_filter_le f l) hlen
          · intro x hx
            exact hf x (List.mem_filter.1 hx).2
          · exact hc
          · intro hfl
            have hfe : l.filter f = l := by
              rw [List.filter_eq_self, ← List.filter_length_eq_length]
              omega
            rw [hfe]
            refine ⟨u, v, hu, hv, ?_⟩
            rw [ex, ey]
            rw [pow_succ] at hs
            rcases hs with hs | hs
            · left; linarith
            · right; linarith
      rw [Insert]
      simp only [QuadTree.boundary, hp, QuadTree.points, QuadTree.cap, nodeCapacity, hl4,
        lt_self_iff_false, QuadTree.isLeaf, Bool.not_true, Bool.false_eq_true, if_false, if_true]
      rw [split_leaf_eq M b l 4 hlen]
      simp only [descend]
      obtain ⟨q1, hq1⟩ := insertFirst_total (Insert (M + 1)) p
        ⟨QuadTree.leaf (boxUL b) (l.filter (firstUL b)) nodeCapacity,
          QuadTree.leaf (boxUR b) (l.filter (firstUR b)) nodeCapacity,
          QuadTree.leaf (boxDL b) (l.filter (firstDL b)) nodeCapacity,
          QuadTree.leaf (boxDR b) (l.filter (firstDR b)) nodeCapacity⟩
        (child (boxUL b) (firstUL b) rfl rfl (fun x hx => by simpa [firstUL] using hx))
        (child (boxUR b) (firstUR b) rfl rfl (fun x hx => by
          simp only [firstUR, Bool.and_eq_true] at hx; exact hx.2))
        (child (boxDL b) (firstDL b) rfl rfl (fun x hx => by
          simp only [firstDL, Bool.and_eq_true] at hx; exact hx.2))
        (child (boxDR b) (firstDR b) rfl rfl (fun x hx => by
          simp only [firstDR, Bool.and_eq_true] at hx; exact hx.2))
      rw [hq1]
      exact ⟨_, rfl⟩

theorem exists_other_of_count_le (p : XY) (l : List XY) (hl : l.length = 4)
    (hc : (p :: l).count p ≤ nodeCapacity) : ∃ v ∈ l, v ≠ p := by
  by_contra hcon
  push_neg at hcon
  have h1 : l.count p = l.length := List.count_eq_length.2 (fun x hx => (hcon x hx).symm)
  rw [List.count_cons_self, h1, hl] at hc
  simp [nodeCapacity] at hc

theorem leaf_insert_terminates_of_count (b : AABB) (l : List XY) (p : XY) (hlen : l.length ≤ 4)
    (hin : ∀ x ∈ l, b.ContainsPoint x = true) (hp : b.ContainsPoint p = true)
    (hc : (p :: l).count p ≤ nodeCapacity) :
    ∃ fuel r, Insert fuel (QuadTree.leaf b l nodeCapacity) p = some r := by
  by_cases hl : l.length = 4
  · obtain ⟨v, hv, hne⟩ := exists_other_of_count_le p l hl hc
    have hxy : v.X ≠ p.X ∨ v.Y ≠ p.Y := by
      by_contra hcon
      push_neg at hcon
      apply hne
      cases v
      cases p
      simp only at hcon
      simp [hcon.1, hcon.2]
    rcases hxy with hx | hy
    · obtain ⟨N, hN⟩ := exists_pow_sep b.halfDim.X |v.X - p.X| (abs_pos.2 (sub_ne_zero.2 hx))
      obtain ⟨r, hr⟩ := leaf_insert_terminates N b l p hlen hin hp
        (fun _ => ⟨v, p, List.mem_cons_of_mem _ hv, List.mem_cons_self _ _, Or.inl hN⟩)
      exact ⟨N + 1, r, hr⟩
    · obtain ⟨N, hN⟩ := exists_pow_sep b.halfDim.Y |v.Y - p.Y| (abs_pos.2 (sub_ne_zero.2 hy))
      obtain ⟨r, hr⟩ := leaf_insert_terminates N b l p hlen hin hp
        (fun _ => ⟨v, p, List.mem_cons_of_mem _ hv, List.mem_cons_self _ _, Or.inr hN⟩)
      exact ⟨N + 1, r, hr⟩
  · obtain ⟨r, hr⟩ := leaf_insert_terminates 0 b l p hlen hin hp (fun h => absurd h hl)
    exact ⟨1, r, hr⟩

/-- On a tree built by `New` and `Insert`, the insertion of `p` returns with
some budget as long as `p` would not be stored more than `nodeCapacity` times
below any leaf. -/
theorem insert_terminates (qt : QuadTree) :
    ∀ (p : XY), Inv qt → (p :: allPoints qt).count p ≤ nodeCapacity →
      ∃ fuel r, Insert fuel qt p = some r := by
  induction qt with
  | leaf b l c =>
    intro p hinv hc
    obtain ⟨rfl, hlen, hin⟩ := hinv
    cases hp : b.ContainsPoint p with
    | false => exact ⟨1, _, insert_reject 0 _ p hp⟩
    | true => exact leaf_insert_terminates_of_count b l p hlen hin hp hc
  | node b l c ul ur dl dr h1 h2 h3 h4 =>
    intro p hinv hc
    have hinv2 := hinv
    obtain ⟨rfl, rfl, -, -, -, -, i1, i2, i3, i4⟩ := hinv
    cases hp : b.ContainsPoint p with
    | false => exact ⟨1, _, insert_reject 0 _ p hp⟩
    | true =>
      simp only [allPoints, List.count_cons_self, List.count_append] at hc
      obtain ⟨f1, r1, e1⟩ := h1 p i1 (by rw [List.count_cons_self]; omega)
      obtain ⟨f2, r2, e2⟩ := h2 p i2 (by rw [List.count_cons_self]; omega)
      obtain ⟨f3, r3, e3⟩ := h3 p i3 (by rw [List.count_cons_self]; omega)
      obtain ⟨f4, r4, e4⟩ := h4 p i4 (by rw [List.count_cons_self]; omega)
      have g1 : Insert (f1 + f2 + f3 + f4) ul p = some r1 := by
        have := insert_mono f1 (f2 + f3 + f4) ul p r1 e1
        rwa [← Nat.add_assoc, ← Nat.add_assoc] at this
      have g2 : Insert (f1 + f2 + f3 + f4) ur p = some r2 := by
        have := insert_mono f2 (f1 + f3 + f4) ur p r2 e2
        rwa [show f2 + (f1 + f3 + f4) = f1 + f2 + f3 + f4 by omega] at this
      have g3 : Insert (f1 + f2 + f3 + f4) dl p = some r3 := by
        have := insert_mono f3 (f1 + f2 + f4) dl p r3 e3
        rwa [show f3 + (f1 + f2 + f4) = f1 + f2 + f3 + f4 by omega] at this
      have g4 : Insert (f1 + f2 + f3 + f4) dr p = some r4 := by
        have := insert_mono f4 (f1 + f2 + f3) dr p r4 e4
        rwa [show f4 + (f1 + f2 + f3) = f1 + f2 + f3 + f4 by omega] at this
      obtain ⟨q1, hq1⟩ := insertFirst_total (Insert (f1 + f2 + f3 + f4)) p ⟨ul, ur, dl, dr⟩
        ⟨r1, g1⟩ ⟨r2, g2⟩ ⟨r3, g3⟩ ⟨r4, g4⟩
      refine ⟨f1 + f2 + f3 + f4 + 1, (true, QuadTree.node b [] 0 q1.ul q1.ur q1.dl q1.dr), ?_⟩
      rw [Insert]
      simp only [QuadTree.boundary, hp, QuadTree.points, QuadTree.cap, QuadTree.isLeaf,
        List.length_nil, lt_self_iff_false, Bool.not_true, Bool.false_eq_true, if_false,
        descend, hq1]

theorem insertAll_mono (fuel k : Nat) (ps : List XY) :
    ∀ (qt : QuadTree) (r : List XY × QuadTree),
      insertAll fuel qt ps = some r → insertAll (fuel + k) qt ps = some r := by
  induction ps with
  | nil => intro qt r h; exact h
  | cons p ps ih =>
    intro qt r h
    simp only [insertAll] at h ⊢
    cases h1 : Insert fuel qt p with
    | none => simp [h1] at h
    | some r1 =>
      obtain ⟨b, qt1⟩ := r1
      rw [insert_mono fuel k qt p _ h1]
      simp only [h1] at h ⊢
      cases h2 : insertAll fuel qt1 ps with
      | none => simp [h2] at h
      | some r2 =>
        rw [ih qt1 r2 h2]
        simp only [h2] at h
        exact h

theorem insertAll_terminates (ps : List XY) :
    ∀ (qt : QuadTree), Inv qt → (∀ x, (allPoints qt ++ ps).count x ≤ nodeCapacity) →
      ∃ fuel r, insertAll fuel qt ps = some r := by
  induction ps with
  | nil => intro qt _ _; exact ⟨0, _, rfl⟩
  | cons p ps ih =>
    intro qt hinv hc
    have hcp : (p :: allPoints qt).count p ≤ nodeCapacity := by
      have := hc p
      simp only [List.count_append, List.count_cons_self] at this ⊢
      omega
    obtain ⟨f1, ⟨b, qt1⟩, e1⟩ := insert_terminates qt p hinv hcp
    obtain ⟨i1, -, -, u1, p1⟩ := insert_spec f1 qt p b qt1 hinv e1
    have hc1 : ∀ x, (allPoints qt1 ++ ps).count x ≤ nodeCapacity := by
      intro x
      have hx := hc x
      simp only [List.count_append] at hx ⊢
      have hle : (allPoints qt1).count x ≤ (p :: allPoints qt).count x := by
        cases b with
        | true => rw [(p1 rfl).count_eq x]
        | false => rw [u1 rfl]; exact List.count_le_count_cons x p _
      have hcons : (p :: allPoints qt).count x + ps.count x =
          (allPoints qt).count x + (p :: ps).count x := by
        simp only [List.count_cons]
        omega
      omega
    obtain ⟨f2, r2, e2⟩ := ih qt1 i1 hc1
    refine ⟨f1 + f2, (if b then p :: r2.1 else r2.1, r2.2), ?_⟩
    simp only [insertAll]
    rw [insert_mono f1 f2 qt p _ e1]
    have := insertAll_mono f2 f1 ps qt1 r2 e2
    rw [Nat.add_comm] at this
    simp only [this]

/-- C20: for every root region and every finite sequence of points in which no
point value occurs more than `nodeCapacity` = 4 times, there is a recursion
budget with which every `Insert` of the sequence, run from `New R`, returns. -/
theorem C20_conditional_termination (R : AABB) (ps : List XY)
    (h : ∀ x : XY, ps.count x ≤ nodeCapacity) :
    ∃ (fuel : Nat) (acc : List XY) (qt : QuadTree),
      insertAll fuel (New R) ps = some (acc, qt) := by
  obtain ⟨fuel, ⟨acc, qt⟩, e⟩ := insertAll_terminates ps (New R) (inv_New R)
    (by simpa [New, allPoints] using h)
  exact ⟨fuel, acc, qt, e⟩

/-! ## Depth -/

theorem insert_full_leaf_into_UR (m : Nat) (b : AABB) (A B : XY) (t : QuadTree)
    (hb : b.ContainsPoint B = true)
    (hA1 : (boxUL b).ContainsPoint A = false) (hA2 : (boxUR b).ContainsPoint A = true)
    (hB1 : (boxUL b).ContainsPoint B = false)
    (h : Insert (m + 1) (QuadTree.leaf (boxUR b) [A, A, A, A] nodeCapacity) B = some (true, t)) :
    Insert (m + 2) (QuadTree.leaf b [A, A, A, A] nodeCapacity) B =
      some (true, QuadTree.node b [] 0 (QuadTree.leaf (boxUL b) [] nodeCapacity) t
        (QuadTree.leaf (boxDL b) [] nodeCapacity) (QuadTree.leaf (boxDR b) [] nodeCapacity)) := by
  rw [Insert]
  simp only [QuadTree.boundary, hb, QuadTree.points, QuadTree.cap, nodeCapacity,
    List.length_cons, List.length_nil, QuadTree.isLeaf, Bool.not_true, Bool.false_eq_true,
    if_false, if_true, lt_self_iff_false, Nat.reduceAdd]
  rw [split_leaf_eq m b _ 4 (by simp)]
  simp only [nodeCapacity] at h
  simp [descend, insertFirst, firstUL, firstUR, firstDL, firstDR, hA1, hA2, hB1, insert_reject,
    QuadTree.boundary, h, nodeCapacity]

theorem insert_full_leaf_separate (m : Nat) (b : AABB) (A B : XY)
    (hb : b.ContainsPoint B = true)
    (hA1 : (boxUL b).ContainsPoint A = false) (hA2 : (boxUR b).ContainsPoint A = true)
    (hB1 : (boxUL b).ContainsPoint B = true) :
    Insert (m + 2) (QuadTree.leaf b [A, A, A, A] nodeCapacity) B =
      some (true, QuadTree.node b [] 0 (QuadTree.leaf (boxUL b) [B] nodeCapacity)
        (QuadTree.leaf (boxUR b) [A, A, A, A] nodeCapacity)
        (QuadTree.leaf (boxDL b) [] nodeCapacity) (QuadTree.leaf (boxDR b) [] nodeCapacity)) := by
  rw [Insert]
  simp only [QuadTree.boundary, hb, QuadTree.points, QuadTree.cap, nodeCapacity,
    List.length_cons, List.length_nil, QuadTree.isLeaf, Bool.not_true, Bool.false_eq_true,
    if_false, if_true, lt_self_iff_false, Nat.reduceAdd]
  rw [split_leaf_eq m b _ 4 (by simp)]
  simp [descend, insertFirst, firstUL, firstUR, firstDL, firstDR, hA1, hA2, hB1,
    insert_leaf_append, nodeCapacity]

/-- C18, as stated, fails: five insertions into `New` of the region of centre
(0,0) and half-extents (1,1), four of the point (1,1) and one of (31/32,1), all
return true and leave a tree of depth 6, more than the five inserted points:
the fifth call subdivides six times before the two values part. -/
theorem C18_counterexample_depth_exceeds_insertions :
    ∃ qt : QuadTree,
      insertAll 7 (New ⟨⟨0, 0⟩, ⟨1, 1⟩⟩) [⟨1, 1⟩, ⟨1, 1⟩, ⟨1, 1⟩, ⟨1, 1⟩, ⟨31 / 32, 1⟩] =
        some ([⟨1, 1⟩, ⟨1, 1⟩, ⟨1, 1⟩, ⟨1, 1⟩, ⟨31 / 32, 1⟩], qt) ∧
      depth qt = 6 ∧ ¬ depth qt ≤ [(⟨1, 1⟩ : XY), ⟨1, 1⟩, ⟨1, 1⟩, ⟨1, 1⟩, ⟨31 / 32, 1⟩].length := by
  have hA : AABB.ContainsPoint ⟨⟨0, 0⟩, ⟨1, 1⟩⟩ ⟨1, 1⟩ = true := by
    norm_num [AABB.ContainsPoint]
  have e1 := insert_leaf_append 6 ⟨⟨0, 0⟩, ⟨1, 1⟩⟩ [] 4 ⟨1, 1⟩ hA (by simp)
  have e2 := insert_leaf_append 6 ⟨⟨0, 0⟩, ⟨1, 1⟩⟩ [⟨1, 1⟩] 4 ⟨1, 1⟩ hA (by simp)
  have e3 := insert_leaf_append 6 ⟨⟨0, 0⟩, ⟨1, 1⟩⟩ [⟨1, 1⟩, ⟨1, 1⟩] 4 ⟨1, 1⟩ hA (by simp)
  have e4 := insert_leaf_append 6 ⟨⟨0, 0⟩, ⟨1, 1⟩⟩ [⟨1, 1⟩, ⟨1, 1⟩, ⟨1, 1⟩] 4 ⟨1, 1⟩ hA (by simp)
  have e5 :=
    insert_full_leaf_into_UR 5 ⟨⟨0, 0⟩, ⟨1, 1⟩⟩ ⟨1, 1⟩ ⟨31 / 32, 1⟩ _
      (by norm_num [AABB.ContainsPoint, boxUL, boxUR])
      (by norm_num [AABB.ContainsPoint, boxUL, boxUR])
      (by norm_num [AABB.ContainsPoint, boxUL, boxUR])
      (by norm_num [AABB.ContainsPoint, boxUL, boxUR])
    (insert_full_leaf_into_UR 4 _ ⟨1, 1⟩ ⟨31 / 32, 1⟩ _
      (by norm_num [AABB.ContainsPoint, boxUL, boxUR])
      (by norm_num [AABB.ContainsPoint, boxUL, boxUR])
      (by norm_num [AABB.ContainsPoint, boxUL, boxUR])
      (by norm_num [AABB.ContainsPoint, boxUL, boxUR])
    (insert_full_leaf_into_UR 3 _ ⟨1, 1⟩ ⟨31 / 32, 1⟩ _
      (by norm_num [AABB.ContainsPoint, boxUL, boxUR])
      (by norm_num [AABB.ContainsPoint, boxUL, boxUR])
      (by norm_num [AABB.ContainsPoint, boxUL, boxUR])
      (by norm_num [AABB.ContainsPoint, boxUL, boxUR])
    (insert_full_leaf_into_UR 2 _ ⟨1, 1⟩ ⟨31 / 32, 1⟩ _
      (by norm_num [AABB.ContainsPoint, boxUL, boxUR])
      (by norm_num [AABB.ContainsPoint, boxUL, boxUR])
      (by norm_num [AABB.ContainsPoint, boxUL, boxUR])
      (by norm_num [AABB.ContainsPoint, boxUL, boxUR])
    (insert_full_leaf_into_UR 1 _ ⟨1, 1⟩ ⟨31 / 32, 1⟩ _
      (by norm_num [AABB.ContainsPoint, boxUL, boxUR])
      (by norm_num [AABB.ContainsPoint, boxUL, boxUR])
      (by norm_num [AABB.ContainsPoint, boxUL, boxUR])
      (by norm_num [AABB.ContainsPoint, boxUL, boxUR])
    (insert_full_leaf_separate 0 _ ⟨1, 1⟩ ⟨31 / 32, 1⟩
      (by norm_num [AABB.ContainsPoint, boxUL, boxUR])
      (by norm_num [AABB.ContainsPoint, boxUL, boxUR])
      (by norm_num [AABB.ContainsPoint, boxUL, boxUR])
      (by norm_num [AABB.ContainsPoint, boxUL, boxUR]))))))
  simp only [List.nil_append, List.singleton_append, List.cons_append] at e1 e2 e3 e4
  simp only [nodeCapacity] at e5
  have key : ∃ t : QuadTree,
      Insert 7 (QuadTree.leaf ⟨⟨0, 0⟩, ⟨1, 1⟩⟩ [⟨1, 1⟩, ⟨1, 1⟩, ⟨1, 1⟩, ⟨1, 1⟩] 4) ⟨31 / 32, 1⟩ =
        some (true, t) ∧ depth t = 6 := ⟨_, e5, by simp [depth]⟩
  obtain ⟨t, ht, hd⟩ := key
  refine ⟨t, ?_, hd, ?_⟩
  · simp only [insertAll, New, nodeCapacity, e1, e2, e3, e4, ht, if_true]
  · rw [hd]
    simp

theorem insert_node_eq_descend (n : Nat) (b : AABB) (ul ur dl dr : QuadTree) (p : XY)
    (hb : b.ContainsPoint p = true) :
    Insert (n + 1) (QuadTree.node b [] 0 ul ur dl dr) p =
      descend (Insert n) p (QuadTree.node b [] 0 ul ur dl dr) := by
  rw [Insert]
  simp [QuadTree.boundary, hb, QuadTree.points, QuadTree.cap, QuadTree.isLeaf]

theorem insert_full_leaf_eq (m : Nat) (b : AABB) (l : List XY) (p : XY)
    (hb : b.ContainsPoint p = true) (hl : l.length = 4) :
    Insert (m + 2) (QuadTree.leaf b l nodeCapacity) p =
      Insert (m + 2) (QuadTree.node b [] 0
        (QuadTree.leaf (boxUL b) (l.filter (firstUL b)) nodeCapacity)
        (QuadTree.leaf (boxUR b) (l.filter (firstUR b)) nodeCapacity)
        (QuadTree.leaf (boxDL b) (l.filter (firstDL b)) nodeCapacity)
        (QuadTree.leaf (boxDR b) (l.filter (firstDR b)) nodeCapacity)) p := by
  rw [insert_node_eq_descend (m + 1) b _ _ _ _ p hb]
  rw [Insert]
  simp only [QuadTree.boundary, hb, QuadTree.points, QuadTree.cap, nodeCapacity, hl,
    lt_self_iff_false, QuadTree.isLeaf, Bool.not_true, Bool.false_eq_true, if_false, if_true]
  rw [split_leaf_eq m b l 4 (by omega)]
  simp only [nodeCapacity]

theorem dense_node_step (n : Nat)
    (ih : ∀ qt p b qt1, Inv qt → Dense qt → Insert n qt p = some (b, qt1) → Dense qt1)
    (b : AABB) (ps : List XY) (c : Nat) (ul ur dl dr : QuadTree) (p : XY) (r : Bool)
    (qt1 : QuadTree) (hinv : Inv (QuadTree.node b ps c ul ur dl dr))
    (d1 : Dense ul) (d2 : Dense ur) (d3 : Dense dl) (d4 : Dense dr)
    (hb : b.ContainsPoint p = true)
    (h : Insert (n + 1) (QuadTree.node b ps c ul ur dl dr) p = some (r, qt1)) :
    ∃ ul1 ur1 dl1 dr1, qt1 = QuadTree.node b ps c ul1 ur1 dl1 dr1 ∧
      Dense ul1 ∧ Dense ur1 ∧ Dense dl1 ∧ Dense dr1 := by
  have hinv2 := hinv
  obtain ⟨-, -, -, -, -, -, i1, i2, i3, i4⟩ := hinv2
  rcases insert_node_first_match n b ps c ul ur dl dr p r qt1 hinv hb h with
    ⟨-, t, ht, -, e⟩ | ⟨-, -, t, ht, -, e⟩ | ⟨-, -, -, t, ht, -, e⟩ | ⟨-, -, -, -, t, ht, -, e⟩
  · exact ⟨t, ur, dl, dr, e, ih _ _ _ _ i1 d1 ht, d2, d3, d4⟩
  · exact ⟨ul, t, dl, dr, e, d1, ih _ _ _ _ i2 d2 ht, d3, d4⟩
  · exact ⟨ul, ur, t, dr, e, d1, d2, ih _ _ _ _ i3 d3 ht, d4⟩
  · exact ⟨ul, ur, dl, t, e, d1, d2, d3, ih _ _ _ _ i4 d4 ht⟩

theorem insert_dense (fuel : Nat) :
    ∀ (qt : QuadTree) (p : XY) (b : Bool) (qt1 : QuadTree), Inv qt → Dense qt →
      Insert fuel qt p = some (b, qt1) → Dense qt1 := by
  induction fuel with
  | zero => intro qt p b qt1 _ _ h; simp [Insert] at h
  | succ n ih =>
    intro qt p b qt1 hinv hd h
    obtain ⟨-, -, g, -, hperm⟩ := insert_spec (n + 1) qt p b qt1 hinv h
    cases b with
    | false =>
      rw [insert_false_unchanged (n + 1) qt p qt1 h]
      exact hd
    | true =>
      have hp := hperm rfl
      cases qt with
      | leaf bd l c =>
        simp only [QuadTree.boundary] at g
        obtain ⟨rfl, hlen, hin⟩ := hinv
        by_cases hl : l.length < 4
        · rw [insert_leaf_append n bd l nodeCapacity p g.symm
            (by simpa [nodeCapacity] using hl)] at h
          simp only [Option.some.injEq, Prod.mk.injEq, true_and] at h
          rw [← h]
          trivial
        · have hl4 : l.length = 4 := by
            simp only [nodeCapacity] at hlen
            omega
          cases n with
          | zero =>
            exfalso
            rw [Insert] at h
            obtain ⟨a, l1, rfl⟩ := List.exists_cons_of_length_eq_add_one hl4
            simp [QuadTree.boundary, ← g, QuadTree.points, QuadTree.cap, nodeCapacity, hl4,
              QuadTree.isLeaf, split, reinsert, insertFirst, Insert] at h
          | succ m =>
            rw [insert_full_leaf_eq m bd l p g.symm hl4] at h
            have hsplit := split_leaf_eq m bd l 4 (by omega)
            have hN := inv_split (m + 1) _ _
              (show Inv (QuadTree.leaf bd l 4) from ⟨rfl, hlen, hin⟩) hsplit
            obtain ⟨ul1, ur1, dl1, dr1, e, k1, k2, k3, k4⟩ :=
              dense_node_step (m + 1) ih bd [] 0 _ _ _ _ p true qt1 hN trivial trivial trivial
                trivial g.symm h
            subst e
            refine ⟨?_, k1, k2, k3, k4⟩
            have := hp.length_eq
            simp only [allPoints, List.length_cons, hl4] at this
            simp only [nodeCapacity]
            rw [show (allPoints (QuadTree.node bd [] 0 ul1 ur1 dl1 dr1)).length = 4 + 1 from this]
            omega
      | node bd l c ul ur dl dr =>
        simp only [QuadTree.boundary] at g
        obtain ⟨hlen0, d1, d2, d3, d4⟩ := hd
        obtain ⟨ul1, ur1, dl1, dr1, e, k1, k2, k3, k4⟩ :=
          dense_node_step n ih bd l c ul ur dl dr p true qt1 hinv d1 d2 d3 d4 g.symm h
        subst e
        refine ⟨?_, k1, k2, k3, k4⟩
        have := hp.length_eq
        rw [List.length_cons] at this
        omega

theorem insertAll_dense (fuel : Nat) (ps : List XY) :
    ∀ (qt qt1 : QuadTree) (acc : List XY), Inv qt → Dense qt →
      insertAll fuel qt ps = some (acc, qt1) → Dense qt1 := by
  induction ps with
  | nil =>
    intro qt qt1 acc _ hd h
    simp only [insertAll, Option.some.injEq, Prod.mk.injEq] at h
    rw [← h.2]
    exact hd
  | cons p ps ih =>
    intro qt qt1 acc hinv hd h
    simp only [insertAll] at h
    cases h1 : Insert fuel qt p with
    | none => simp [h1] at h
    | some r =>
      obtain ⟨b, qt2⟩ := r
      simp only [h1] at h
      cases h2 : insertAll fuel qt2 ps with
      | none => simp [h2] at h
      | some r2 =>
        obtain ⟨acc2, qt3⟩ := r2
        simp only [h2, Option.some.injEq, Prod.mk.injEq] at h
        rw [← h.2]
        exact ih qt2 qt3 acc2 (insert_spec fuel qt p b qt2 hinv h1).1
          (insert_dense fuel qt p b qt2 hinv hd h1) h2

theorem exists_two_distinct (l : List XY) (hlen : nodeCapacity < l.length)
    (hc : ∀ x, l.count x ≤ nodeCapacity) : ∃ u ∈ l, ∃ v ∈ l, u ≠ v := by
  cases l with
  | nil => simp at hlen
  | cons u t =>
    by_contra hcon
    push_neg at hcon
    have hall : ∀ b ∈ u :: t, u = b := fun b hb => hcon u (List.mem_cons_self _ _) b hb
    have h1 : (u :: t).count u = (u :: t).length := List.count_eq_length.2 hall
    have h2 := hc u
    omega

/-- A tree of the invariant whose internal nodes all hold more than
`nodeCapacity` points, none more than `nodeCapacity` times, is no deeper than
the number of halvings after which its region cannot hold two of its distinct
points. -/
theorem depth_le_of_separation (qt : QuadTree) :
    ∀ (N : Nat), Inv qt → Dense qt → (∀ x, (allPoints qt).count x ≤ nodeCapacity) →
      (∀ u ∈ allPoints qt, ∀ v ∈ allPoints qt, u ≠ v →
        2 * qt.boundary.halfDim.X < |u.X - v.X| * 2 ^ N ∨
        2 * qt.boundary.halfDim.Y < |u.Y - v.Y| * 2 ^ N) →
      depth qt ≤ N := by
  induction qt with
  | leaf b l c => intro N _ _ _ _; simp [depth]
  | node b l c ul ur dl dr h1 h2 h3 h4 =>
    intro N hinv hd hc hsep
    have hin := inv_allPoints_contained _ hinv
    obtain ⟨-, -, e1, e2, e3, e4, i1, i2, i3, i4⟩ := hinv
    obtain ⟨hlen, d1, d2, d3, d4⟩ := hd
    simp only [QuadTree.boundary] at hsep hin
    cases N with
    | zero =>
      exfalso
      obtain ⟨u, hu, v, hv, hne⟩ := exists_two_distinct _ hlen hc
      obtain ⟨k1, k2⟩ := contains_diff_le b u v (hin u hu) (hin v hv)
      have := hsep u hu v hv hne
      simp only [pow_zero, mul_one] at this
      rcases this with hs | hs <;> linarith
    | succ M =>
      have child : ∀ (t : QuadTree), (t.boundary.halfDim.X = b.halfDim.X / 2) →
          (t.boundary.halfDim.Y = b.halfDim.Y / 2) →
          (∀ x, x ∈ allPoints t → x ∈ allPoints (QuadTree.node b l c ul ur dl dr)) →
          (∀ x, (allPoints t).count x ≤ (allPoints (QuadTree.node b l c ul ur dl dr)).count x) →
          (∀ x, (allPoints t).count x ≤ nodeCapacity) ∧
          (∀ u ∈ allPoints t, ∀ v ∈ allPoints t, u ≠ v →
            2 * t.boundary.halfDim.X < |u.X - v.X| * 2 ^ M ∨
            2 * t.boundary.halfDim.Y < |u.Y - v.Y| * 2 ^ M) := by
        intro t ex ey hsub hcnt
        refine ⟨fun x => le_trans (hcnt x) (hc x), ?_⟩
        intro u hu v hv hne
        have := hsep u (hsub u hu) v (hsub v hv) hne
        rw [ex, ey]
        rw [pow_succ] at this
        rcases this with hs | hs
        · left; linarith
        · right; linarith
      obtain ⟨c1, s1⟩ := child ul (by rw [e1]; rfl) (by rw [e1]; rfl)
        (fun x hx => by simp only [allPoints, List.mem_append]; tauto)
        (fun x => by simp only [allPoints, List.count_append]; omega)
      obtain ⟨c2, s2⟩ := child ur (by rw [e2]; rfl) (by rw [e2]; rfl)
        (fun x hx => by simp only [allPoints, List.mem_append]; tauto)
        (fun x => by simp only [allPoints, List.count_append]; omega)
      obtain ⟨c3, s3⟩ := child dl (by rw [e3]; rfl) (by rw [e3]; rfl)
        (fun x hx => by simp only [allPoints, List.mem_append]; tauto)
        (fun x => by simp only [allPoints, List.count_append]; omega)
      obtain ⟨c4, s4⟩ := child dr (by rw [e4]; rfl) (by rw [e4]; rfl)
        (fun x hx => by simp only [allPoints, List.mem_append]; tauto)
        (fun x => by simp only [allPoints, List.count_append]; omega)
      have g1 := h1 M i1 d1 c1 s1
      have g2 := h2 M i2 d2 c2 s2
      have g3 := h3 M i3 d3 c3 s3
      have g4 := h4 M i4 d4 c4 s4
      simp only [depth]
      omega

/-- C18, amended (coordinates are exact numbers): after any run of insertions
into `New R` in which every call returns, the depth is bounded by the geometry
and not by the number of insertions: if no value was accepted more than
`nodeCapacity` times and after `N` halvings the half-extents of `R` are too
small for a region to hold any two distinct accepted points, the depth is at
most `N`; every subdivided node holds more than `nodeCapacity` points below it;
and the depth is 0 as long as at most `nodeCapacity` points were accepted. -/
theorem C18_depth_bounded_by_separation (fuel : Nat) (R : AABB) (ps acc : List XY)
    (qt : QuadTree) (N : Nat) (h : insertAll fuel (New R) ps = some (acc, qt))
    (hcount : ∀ x : XY, acc.count x ≤ nodeCapacity)
    (hsep : ∀ u ∈ acc, ∀ v ∈ acc, u ≠ v →
      2 * R.halfDim.X < |u.X - v.X| * 2 ^ N ∨ 2 * R.halfDim.Y < |u.Y - v.Y| * 2 ^ N) :
    depth qt ≤ N ∧ Dense qt ∧ (acc.length ≤ nodeCapacity → depth qt = 0) := by
  have hd : Dense qt := insertAll_dense fuel ps (New R) qt acc (inv_New R) trivial h
  obtain ⟨hinv, hb, -, hperm⟩ := insertAll_New fuel R ps acc qt h
  refine ⟨?_, hd, ?_⟩
  · apply depth_le_of_separation qt N hinv hd
    · intro x
      rw [hperm.count_eq x]
      exact hcount x
    · intro u hu v hv hne
      rw [hb]
      exact hsep u (hperm.mem_iff.1 hu) v (hperm.mem_iff.1 hv) hne
  · intro hacc
    cases qt with
    | leaf b l c => rfl
    | node b l c ul ur dl dr =>
      exfalso
      have h1 := hd.1
      rw [hperm.length_eq] at h1
      omega

/-- C15, as stated, fails: the internal node below is the one the float64 code
builds from `New` of the region of centre (0.1,0.1) and half-extents (2,2) by
inserting (1,1), (-1,1), (-1,-1), (1,-1), (0.5,0.5); the centres of its children
are the float64 values of 0.1 - 1 and 0.1 + 1, written as exact fractions, so
that the upper children begin just above the height 0.1 and the lower children
end just below it.  The point (-0.5, 0.1) lies in the node's region and in no
child's region: `Insert` returns true and the node, with all four children, is
as before. -/
theorem C15_counterexample_no_child_changes :
    (QuadTree.node
        ⟨⟨3602879701896397 / 36028797018963968, 3602879701896397 / 36028797018963968⟩, ⟨2, 2⟩⟩
        [] 0
        (QuadTree.leaf
          ⟨⟨-8106479329266893 / 9007199254740992, 2476979795053773 / 2251799813685248⟩, ⟨1, 1⟩⟩
          [⟨-1, 1⟩] 4)
        (QuadTree.leaf
          ⟨⟨2476979795053773 / 2251799813685248, 2476979795053773 / 2251799813685248⟩, ⟨1, 1⟩⟩
          [⟨1, 1⟩, ⟨1 / 2, 1 / 2⟩] 4)
        (QuadTree.leaf
          ⟨⟨-8106479329266893 / 9007199254740992, -8106479329266893 / 9007199254740992⟩, ⟨1, 1⟩⟩
          [⟨-1, -1⟩] 4)
        (QuadTree.leaf
          ⟨⟨2476979795053773 / 2251799813685248, -8106479329266893 / 9007199254740992⟩, ⟨1, 1⟩⟩
          [⟨1, -1⟩] 4)).boundary.ContainsPoint
      ⟨-1 / 2, 3602879701896397 / 36028797018963968⟩ = true ∧
    ∀ fuel : Nat,
      Insert (fuel + 2)
        (QuadTree.node
          ⟨⟨3602879701896397 / 36028797018963968, 3602879701896397 / 36028797018963968⟩, ⟨2, 2⟩⟩
          [] 0
          (QuadTree.leaf
            ⟨⟨-8106479329266893 / 9007199254740992, 2476979795053773 / 2251799813685248⟩, ⟨1, 1⟩⟩
            [⟨-1, 1⟩] 4)
          (QuadTree.leaf
            ⟨⟨2476979795053773 / 2251799813685248, 2476979795053773 / 2251799813685248⟩, ⟨1, 1⟩⟩
            [⟨1, 1⟩, ⟨1 / 2, 1 / 2⟩] 4)
          (QuadTree.leaf
            ⟨⟨-8106479329266893 / 9007199254740992, -8106479329266893 / 9007199254740992⟩,
              ⟨1, 1⟩⟩
            [⟨-1, -1⟩] 4)
          (QuadTree.leaf
            ⟨⟨2476979795053773 / 2251799813685248, -8106479329266893 / 9007199254740992⟩, ⟨1, 1⟩⟩
            [⟨1, -1⟩] 4))
        ⟨-1 / 2, 3602879701896397 / 36028797018963968⟩ =
      some (true,
        QuadTree.node
          ⟨⟨3602879701896397 / 36028797018963968, 3602879701896397 / 36028797018963968⟩, ⟨2, 2⟩⟩
          [] 0
          (QuadTree.leaf
            ⟨⟨-8106479329266893 / 9007199254740992, 2476979795053773 / 2251799813685248⟩, ⟨1, 1⟩⟩
            [⟨-1, 1⟩] 4)
          (QuadTree.leaf
            ⟨⟨2476979795053773 / 2251799813685248, 2476979795053773 / 2251799813685248⟩, ⟨1, 1⟩⟩
            [⟨1, 1⟩, ⟨1 / 2, 1 / 2⟩] 4)
          (QuadTree.leaf
            ⟨⟨-8106479329266893 / 9007199254740992, -8106479329266893 / 9007199254740992⟩,
              ⟨1, 1⟩⟩
            [⟨-1, -1⟩] 4)
          (QuadTree.leaf
            ⟨⟨2476979795053773 / 2251799813685248, -8106479329266893 / 9007199254740992⟩, ⟨1, 1⟩⟩
            [⟨1, -1⟩] 4)) := by
  refine ⟨?_, ?_⟩
  · norm_num [AABB.ContainsPoint, QuadTree.boundary]
  · intro fuel
    rw [insert_node_eq_descend (fuel + 1) _ _ _ _ _ _
      (by norm_num [AABB.ContainsPoint])]
    have r1 := insert_reject fuel
      (QuadTree.leaf
        ⟨⟨-8106479329266893 / 9007199254740992, 2476979795053773 / 2251799813685248⟩, ⟨1, 1⟩⟩
        [⟨-1, 1⟩] 4) ⟨-1 / 2, 3602879701896397 / 36028797018963968⟩
      (by norm_num [AABB.ContainsPoint, QuadTree.boundary])
    have r2 := insert_reject fuel
      (QuadTree.leaf
        ⟨⟨2476979795053773 / 2251799813685248, 2476979795053773 / 2251799813685248⟩, ⟨1, 1⟩⟩
        [⟨1, 1⟩, ⟨1 / 2, 1 / 2⟩] 4) ⟨-1 / 2, 3602879701896397 / 36028797018963968⟩
      (by norm_num [AABB.ContainsPoint, QuadTree.boundary])
    have r3 := insert_reject fuel
      (QuadTree.leaf
        ⟨⟨-8106479329266893 / 9007199254740992, -8106479329266893 / 9007199254740992⟩, ⟨1, 1⟩⟩
        [⟨-1, -1⟩] 4) ⟨-1 / 2, 3602879701896397 / 36028797018963968⟩
      (by norm_num [AABB.ContainsPoint, QuadTree.boundary])
    have r4 := insert_reject fuel
      (QuadTree.leaf
        ⟨⟨2476979795053773 / 2251799813685248, -8106479329266893 / 9007199254740992⟩, ⟨1, 1⟩⟩
        [⟨1, -1⟩] 4) ⟨-1 / 2, 3602879701896397 / 36028797018963968⟩
      (by norm_num [AABB.ContainsPoint, QuadTree.boundary])
    simp only [descend, insertFirst, r1, r2, r3, r4]

/-! ## Instances at concrete inputs -/

theorem C12_containment_invariant_witness :
    ContainmentInv
      (QuadTree.node ⟨⟨0, 0⟩, ⟨10, 10⟩⟩ [] 0
        (QuadTree.leaf ⟨⟨-5, 5⟩, ⟨5, 5⟩⟩ [⟨-5, 5⟩, ⟨0, 0⟩] 4)
        (QuadTree.leaf ⟨⟨5, 5⟩, ⟨5, 5⟩⟩ [⟨5, 5⟩] 4)
        (QuadTree.leaf ⟨⟨-5, -5⟩, ⟨5, 5⟩⟩ [⟨-5, -5⟩] 4)
        (QuadTree.leaf ⟨⟨5, -5⟩, ⟨5, 5⟩⟩ [⟨5, -5⟩] 4)) :=
  (C12_containment_invariant 2 ⟨⟨0, 0⟩, ⟨10, 10⟩⟩
    [⟨5, 5⟩, ⟨-5, 5⟩, ⟨-5, -5⟩, ⟨5, -5⟩, ⟨0, 0⟩, ⟨11, 0⟩]
    [⟨5, 5⟩, ⟨-5, 5⟩, ⟨-5, -5⟩, ⟨5, -5⟩, ⟨0, 0⟩] _
    (by norm_num [insertAll, Insert, split, reinsert, insertFirst, descend, New,
      AABB.ContainsPoint, QuadTree.boundary, QuadTree.points, QuadTree.cap,
      QuadTree.appendPoint, QuadTree.isLeaf, nodeCapacity, boxUL, boxUR, boxDL, boxDR])).2.1

theorem C13_shape_invariant_witness :
    Shape
      (QuadTree.node ⟨⟨0, 0⟩, ⟨10, 10⟩⟩ [] 0
        (QuadTree.leaf ⟨⟨-5, 5⟩, ⟨5, 5⟩⟩ [⟨-5, 5⟩, ⟨0, 0⟩] 4)
        (QuadTree.leaf ⟨⟨5, 5⟩, ⟨5, 5⟩⟩ [⟨5, 5⟩] 4)
        (QuadTree.leaf ⟨⟨-5, -5⟩, ⟨5, 5⟩⟩ [⟨-5, -5⟩] 4)
        (QuadTree.leaf ⟨⟨5, -5⟩, ⟨5, 5⟩⟩ [⟨5, -5⟩] 4)) :=
  (C13_shape_invariant 2 ⟨⟨0, 0⟩, ⟨10, 10⟩⟩
    [⟨5, 5⟩, ⟨-5, 5⟩, ⟨-5, -5⟩, ⟨5, -5⟩, ⟨0, 0⟩]
    [⟨5, 5⟩, ⟨-5, 5⟩, ⟨-5, -5⟩, ⟨5, -5⟩, ⟨0, 0⟩] _
    (by norm_num [insertAll, Insert, split, reinsert, insertFirst, descend, New,
      AABB.ContainsPoint, QuadTree.boundary, QuadTree.points, QuadTree.cap,
      QuadTree.appendPoint, QuadTree.isLeaf, nodeCapacity, boxUL, boxUR, boxDL, boxDR])).1

theorem C14_pruning_sound_witness :
    SearchArea
        (QuadTree.node ⟨⟨0, 0⟩, ⟨10, 10⟩⟩ [] 0
          (QuadTree.leaf ⟨⟨-5, 5⟩, ⟨5, 5⟩⟩ [⟨-5, 5⟩, ⟨0, 0⟩] 4)
          (QuadTree.leaf ⟨⟨5, 5⟩, ⟨5, 5⟩⟩ [⟨5, 5⟩] 4)
          (QuadTree.leaf ⟨⟨-5, -5⟩, ⟨5, 5⟩⟩ [⟨-5, -5⟩] 4)
          (QuadTree.leaf ⟨⟨5, -5⟩, ⟨5, 5⟩⟩ [⟨5, -5⟩] 4))
        ⟨⟨-5, -5⟩, ⟨5, 5⟩⟩ =
      (allPoints
        (QuadTree.node ⟨⟨0, 0⟩, ⟨10, 10⟩⟩ [] 0
          (QuadTree.leaf ⟨⟨-5, 5⟩, ⟨5, 5⟩⟩ [⟨-5, 5⟩, ⟨0, 0⟩] 4)
          (QuadTree.leaf ⟨⟨5, 5⟩, ⟨5, 5⟩⟩ [⟨5, 5⟩] 4)
          (QuadTree.leaf ⟨⟨-5, -5⟩, ⟨5, 5⟩⟩ [⟨-5, -5⟩] 4)
          (QuadTree.leaf ⟨⟨5, -5⟩, ⟨5, 5⟩⟩ [⟨5, -5⟩] 4))).filter
        (fun p => AABB.ContainsPoint ⟨⟨-5, -5⟩, ⟨5, 5⟩⟩ p) :=
  (C14_pruning_sound _ ⟨⟨-5, -5⟩, ⟨5, 5⟩⟩
    (by norm_num [ContainmentInv, storedPoints, AABB.ContainsPoint])).1

theorem C15_first_match_ownership_witness :
    (allPoints
        (QuadTree.node ⟨⟨0, 0⟩, ⟨10, 10⟩⟩ [] 0
          (QuadTree.leaf ⟨⟨-5, 5⟩, ⟨5, 5⟩⟩ [⟨-5, 5⟩, ⟨0, 0⟩] 4)
          (QuadTree.leaf ⟨⟨5, 5⟩, ⟨5, 5⟩⟩ [⟨5, 5⟩] 4)
          (QuadTree.leaf ⟨⟨-5, -5⟩, ⟨5, 5⟩⟩ [⟨-5, -5⟩] 4)
          (QuadTree.leaf ⟨⟨5, -5⟩, ⟨5, 5⟩⟩ [⟨5, -5⟩] 4))).count ⟨0, 0⟩ =
      (allPoints
        (QuadTree.node ⟨⟨0, 0⟩, ⟨10, 10⟩⟩ [] 0
          (QuadTree.leaf ⟨⟨-5, 5⟩, ⟨5, 5⟩⟩ [⟨-5, 5⟩] 4)
          (QuadTree.leaf ⟨⟨5, 5⟩, ⟨5, 5⟩⟩ [⟨5, 5⟩] 4)
          (QuadTree.leaf ⟨⟨-5, -5⟩, ⟨5, 5⟩⟩ [⟨-5, -5⟩] 4)
          (QuadTree.leaf ⟨⟨5, -5⟩, ⟨5, 5⟩⟩ [⟨5, -5⟩] 4))).count ⟨0, 0⟩ + 1 :=
  (C15_first_match_ownership 1 ⟨⟨0, 0⟩, ⟨10, 10⟩⟩ [] 0
    (QuadTree.leaf ⟨⟨-5, 5⟩, ⟨5, 5⟩⟩ [⟨-5, 5⟩] 4)
    (QuadTree.leaf ⟨⟨5, 5⟩, ⟨5, 5⟩⟩ [⟨5, 5⟩] 4)
    (QuadTree.leaf ⟨⟨-5, -5⟩, ⟨5, 5⟩⟩ [⟨-5, -5⟩] 4)
    (QuadTree.leaf ⟨⟨5, -5⟩, ⟨5, 5⟩⟩ [⟨5, -5⟩] 4) ⟨0, 0⟩ true _
    (by norm_num [Inv, QuadTree.boundary, boxUL, boxUR, boxDL, boxDR, nodeCapacity,
      AABB.ContainsPoint])
    (by norm_num [AABB.ContainsPoint])
    (by norm_num [Insert, split, insertFirst, descend,
      AABB.ContainsPoint, QuadTree.boundary, QuadTree.points, QuadTree.cap,
      QuadTree.appendPoint, QuadTree.isLeaf, nodeCapacity])).2

theorem C16_split_redistributes_witness :
    split (Insert (0 + 1))
        (QuadTree.leaf ⟨⟨0, 0⟩, ⟨10, 10⟩⟩ [⟨5, 5⟩, ⟨-5, 5⟩, ⟨0, 0⟩, ⟨5, -5⟩] 4) =
      some (QuadTree.node ⟨⟨0, 0⟩, ⟨10, 10⟩⟩ [] 0
        (QuadTree.leaf (boxUL ⟨⟨0, 0⟩, ⟨10, 10⟩⟩)
          (List.filter (firstUL ⟨⟨0, 0⟩, ⟨10, 10⟩⟩) [⟨5, 5⟩, ⟨-5, 5⟩, ⟨0, 0⟩, ⟨5, -5⟩])
          nodeCapacity)
        (QuadTree.leaf (boxUR ⟨⟨0, 0⟩, ⟨10, 10⟩⟩)
          (List.filter (firstUR ⟨⟨0, 0⟩, ⟨10, 10⟩⟩) [⟨5, 5⟩, ⟨-5, 5⟩, ⟨0, 0⟩, ⟨5, -5⟩])
          nodeCapacity)
        (QuadTree.leaf (boxDL ⟨⟨0, 0⟩, ⟨10, 10⟩⟩)
          (List.filter (firstDL ⟨⟨0, 0⟩, ⟨10, 10⟩⟩) [⟨5, 5⟩, ⟨-5, 5⟩, ⟨0, 0⟩, ⟨5, -5⟩])
          nodeCapacity)
        (QuadTree.leaf (boxDR ⟨⟨0, 0⟩, ⟨10, 10⟩⟩)
          (List.filter (firstDR ⟨⟨0, 0⟩, ⟨10, 10⟩⟩) [⟨5, 5⟩, ⟨-5, 5⟩, ⟨0, 0⟩, ⟨5, -5⟩])
          nodeCapacity)) :=
  (C16_split_redistributes 0 ⟨⟨0, 0⟩, ⟨10, 10⟩⟩ [⟨5, 5⟩, ⟨-5, 5⟩, ⟨0, 0⟩, ⟨5, -5⟩] 4
    (by simp [nodeCapacity]) (by norm_num [AABB.ContainsPoint])).1

theorem C17_insert_keeps_frame_witness :
    (QuadTree.node ⟨⟨0, 0⟩, ⟨10, 10⟩⟩ [] 0
        (QuadTree.leaf ⟨⟨-5, 5⟩, ⟨5, 5⟩⟩ [⟨-5, 5⟩, ⟨0, 0⟩] 4)
        (QuadTree.leaf ⟨⟨5, 5⟩, ⟨5, 5⟩⟩ [⟨5, 5⟩] 4)
        (QuadTree.leaf ⟨⟨-5, -5⟩, ⟨5, 5⟩⟩ [⟨-5, -5⟩] 4)
        (QuadTree.leaf ⟨⟨5, -5⟩, ⟨5, 5⟩⟩ [⟨5, -5⟩] 4)).boundary =
      (QuadTree.node ⟨⟨0, 0⟩, ⟨10, 10⟩⟩ [] 0
        (QuadTree.leaf ⟨⟨-5, 5⟩, ⟨5, 5⟩⟩ [⟨-5, 5⟩] 4)
        (QuadTree.leaf ⟨⟨5, 5⟩, ⟨5, 5⟩⟩ [⟨5, 5⟩] 4)
        (QuadTree.leaf ⟨⟨-5, -5⟩, ⟨5, 5⟩⟩ [⟨-5, -5⟩] 4)
        (QuadTree.leaf ⟨⟨5, -5⟩, ⟨5, 5⟩⟩ [⟨5, -5⟩] 4)).boundary :=
  (C17_insert_keeps_frame 2
    (QuadTree.node ⟨⟨0, 0⟩, ⟨10, 10⟩⟩ [] 0
      (QuadTree.leaf ⟨⟨-5, 5⟩, ⟨5, 5⟩⟩ [⟨-5, 5⟩] 4)
      (QuadTree.leaf ⟨⟨5, 5⟩, ⟨5, 5⟩⟩ [⟨5, 5⟩] 4)
      (QuadTree.leaf ⟨⟨-5, -5⟩, ⟨5, 5⟩⟩ [⟨-5, -5⟩] 4)
      (QuadTree.leaf ⟨⟨5, -5⟩, ⟨5, 5⟩⟩ [⟨5, -5⟩] 4)) ⟨0, 0⟩ true _
    (by norm_num [Insert, split, insertFirst, descend,
      AABB.ContainsPoint, QuadTree.boundary, QuadTree.points, QuadTree.cap,
      QuadTree.appendPoint, QuadTree.isLeaf, nodeCapacity])).1

theorem C18_depth_bounded_by_separation_witness :
    depth
        (QuadTree.node ⟨⟨0, 0⟩, ⟨10, 10⟩⟩ [] 0
          (QuadTree.leaf ⟨⟨-5, 5⟩, ⟨5, 5⟩⟩ [⟨-5, 5⟩, ⟨0, 0⟩] 4)
          (QuadTree.leaf ⟨⟨5, 5⟩, ⟨5, 5⟩⟩ [⟨5, 5⟩] 4)
          (QuadTree.leaf ⟨⟨-5, -5⟩, ⟨5, 5⟩⟩ [⟨-5, -5⟩] 4)
          (QuadTree.leaf ⟨⟨5, -5⟩, ⟨5, 5⟩⟩ [⟨5, -5⟩] 4)) ≤ 3 :=
  (C18_depth_bounded_by_separation 2 ⟨⟨0, 0⟩, ⟨10, 10⟩⟩
    [⟨5, 5⟩, ⟨-5, 5⟩, ⟨-5, -5⟩, ⟨5, -5⟩, ⟨0, 0⟩]
    [⟨5, 5⟩, ⟨-5, 5⟩, ⟨-5, -5⟩, ⟨5, -5⟩, ⟨0, 0⟩] _ 3
    (by norm_num [insertAll, Insert, split, reinsert, insertFirst, descend, New,
      AABB.ContainsPoint, QuadTree.boundary, QuadTree.points, QuadTree.cap,
      QuadTree.appendPoint, QuadTree.isLeaf, nodeCapacity, boxUL, boxUR, boxDL, boxDR])
    (by
      intro x
      have hnd : ([⟨5, 5⟩, ⟨-5, 5⟩, ⟨-5, -5⟩, ⟨5, -5⟩, ⟨0, 0⟩] : List XY).Nodup := by
        norm_num [List.nodup_cons]
      exact le_trans (List.nodup_iff_count_le_one.1 hnd x) (by simp [nodeCapacity]))
    (by
      intro u hu v hv hne
      simp only [List.mem_cons, List.mem_singleton, List.not_mem_nil, or_false] at hu hv
      rcases hu with rfl | rfl | rfl | rfl | rfl <;>
        rcases hv with rfl | rfl | rfl | rfl | rfl <;>
        first
          | exact absurd rfl hne
          | (left; norm_num [abs_of_pos, abs_of_neg]; done)
          | (right; norm_num [abs_of_pos, abs_of_neg]))).1

theorem C20_conditional_termination_witness :
    ∃ (fuel : Nat) (acc : List XY) (qt : QuadTree),
      insertAll fuel (New ⟨⟨0, 0⟩, ⟨1, 1⟩⟩)
        [⟨1, 1⟩, ⟨1, 1⟩, ⟨1, 1⟩, ⟨1, 1⟩, ⟨31 / 32, 1⟩] = some (acc, qt) :=
  C20_conditional_termination ⟨⟨0, 0⟩, ⟨1, 1⟩⟩ [⟨1, 1⟩, ⟨1, 1⟩, ⟨1, 1⟩, ⟨1, 1⟩, ⟨31 / 32, 1⟩]
    (by
      intro x
      by_cases hx : x = ⟨1, 1⟩
      · subst hx
        norm_num [List.count_cons, nodeCapacity]
      · have h1 : ((⟨1, 1⟩ : XY) == x) = false := by
          simp only [beq_eq_false_iff_ne, ne_eq]
          exact fun h => hx h.symm
        simp only [List.count_cons, List.count_nil, h1, nodeCapacity]
        split <;> simp)

end Quadtree
